import Mathlib

/-!
# Verification of the solana-token-analyzer aggregation endpoints

Shallow embedding of the three aggregation endpoints of the repository
(`/api/holders`, `/api/traders`, `/api/interval`), in both the Solscan
pro-API TypeScript variants and the public-API JavaScript variants,
together with proofs of the spec's testable properties.

Modelling conventions:
* The upstream Solscan API is modelled as the finite sequence of page
  results the server returns to the successive page requests the loop
  makes (offset 0, 50, 100, ...).  Requesting a page past the end of
  the sequence behaves like an empty page, which makes every loop stop.
* A fetch result is either a page or a transport/non-2xx failure (axios
  throwing); each loop's catch block rethrows a generic error, modelled
  with `Except String`.
* JavaScript numbers that can be `NaN` (results of `parseInt` /
  `parseFloat` on query strings) are modelled as `Option Int` /
  `Option ℚ` with `none` playing NaN: every ordering comparison
  involving `none` is `false`, and `Array.slice(0, NaN)` yields `[]`.
* Token amounts are modelled as exact rationals, `blockTime` as `Nat`
  (unix seconds).
* Loop states additionally record the trace of records the loop has
  iterated over (`scanned`) and the number of page requests issued
  (`fetches`); these ghost fields only observe what the code does.
-/

/-- `n < v` for a JS number `v` that may be NaN (`none`); NaN comparisons
are false. -/
def jltNI (n : Nat) (v : Option Int) : Bool :=
  match v with
  | none => false
  | some v => (n : Int) < v

/-- `n ≤ v` for a possibly-NaN JS number `v`. -/
def jleNI (n : Nat) (v : Option Int) : Bool :=
  match v with
  | none => false
  | some v => (n : Int) ≤ v

/-- `n ≥ v` for a possibly-NaN JS number `v`. -/
def jgeNI (n : Nat) (v : Option Int) : Bool :=
  match v with
  | none => false
  | some v => v ≤ (n : Int)

/-- `q ≥ v` for a possibly-NaN JS number `v` (used for `uiAmount >= minAmount`). -/
def jgeQ (q : ℚ) (v : Option ℚ) : Bool :=
  match v with
  | none => false
  | some m => m ≤ q

/-- JavaScript `Array.prototype.slice(0, e)`: `e = NaN` is converted to 0,
a negative `e` counts from the end. -/
def jsSliceTo {α : Type} (xs : List α) (e : Option Int) : List α :=
  match e with
  | none => []
  | some e => if e < 0 then xs.take ((xs.length : Int) + e).toNat else xs.take e.toNat

/-- Decimal value of a digit run. -/
def digitsVal (cs : List Char) : Nat :=
  cs.foldl (fun acc c => acc * 10 + (c.toNat - 48)) 0

/-- JavaScript `parseInt(s, 10)`: skip whitespace, optional sign, longest
digit run; `none` is NaN (no digits). -/
def jsParseInt (s : String) : Option Int :=
  let cs := s.data.dropWhile (·.isWhitespace)
  let sign : Int := match cs with | '-' :: _ => -1 | _ => 1
  let cs := match cs with
    | '-' :: rest => rest
    | '+' :: rest => rest
    | rest => rest
  let digits := cs.takeWhile (·.isDigit)
  if digits.isEmpty then none
  else some (sign * (digitsVal digits : Int))

/-- JavaScript `parseFloat(s)` restricted to plain decimal literals:
optional sign, integer digits, optional fractional digits; `none` is NaN. -/
def jsParseFloat (s : String) : Option ℚ :=
  let cs := s.data.dropWhile (·.isWhitespace)
  let sign : ℚ := match cs with | '-' :: _ => -1 | _ => 1
  let cs := match cs with
    | '-' :: rest => rest
    | '+' :: rest => rest
    | rest => rest
  let intPart := cs.takeWhile (·.isDigit)
  let rest := cs.drop intPart.length
  let fracPart := match rest with
    | '.' :: r => r.takeWhile (·.isDigit)
    | _ => []
  if intPart.isEmpty && fracPart.isEmpty then none
  else some (sign * ((digitsVal intPart : ℚ) + (digitsVal fracPart : ℚ) / (10 ^ fracPart.length : ℚ)))

/-- Insertion-ordered string-keyed map, as a JS object / `Map` is:
an association list whose keys are unique. -/
def alookup {β : Type} : List (String × β) → String → Option β
  | [], _ => none
  | (k', v) :: rest, k => if k' = k then some v else alookup rest k

/-- JS `obj[k] = v` / `Map.set(k, v)`: overwrite the existing entry in
place, or append a new entry at the end. -/
def jsUpsert {β : Type} : List (String × β) → String → β → List (String × β)
  | [], k, v => [(k, v)]
  | (k', w) :: rest, k, v =>
    if k' = k then (k, v) :: rest else (k', w) :: jsUpsert rest k v

/-- The keys of an association list, in order. -/
def akeys {β : Type} (m : List (String × β)) : List String :=
  m.map Prod.fst

/-- HTTP response of an endpoint handler: a 200 JSON array, a 400
`{error}` object, or a 500 `{error}` object. -/
inductive Resp (α : Type) where
  | ok (dat : List α)
  | badRequest (error : String)
  | serverError (error : String)
deriving DecidableEq

/-- The HTTP status code of a response. -/
def Resp.status {α : Type} : Resp α → Nat
  | .ok _ => 200
  | .badRequest _ => 400
  | .serverError _ => 500

/-- The query-string parameters a request may carry (`req.query`);
`none` is an absent parameter. -/
structure Query where
  token : Option String
  limit : Option String
  minAmount : Option String
  fromQ : Option String
  toQ : Option String

namespace ProApi

/-- One record of the pro-API `token/transfer` response (the fields the
code reads; `signature`, `preBalance`, `postBalance`, `tokenAddress` are
never used). -/
structure Transaction where
  owner : String
  blockTime : Nat
  changeAmount : ℚ
deriving DecidableEq

/-- Result of one paged GET against the pro API: the page's `data` and
`total`, or a thrown transport/non-2xx error. -/
inductive Fetch (α : Type) where
  | ok (dat : List α) (total : Nat)
  | fail
deriving DecidableEq

/-- Per-wallet accumulator of `fetchTopTraders` (`walletVolumes` values). -/
structure TraderAcc where
  volume : ℚ
  lastTx : Nat
deriving DecidableEq

/-- One iteration of the record loop of `fetchTopTraders`
(`/api/traders.ts` lines 64-73): normalize `|changeAmount| / 10^9`,
initialize the wallet's entry to `{volume: 0, lastTx: 0}` if absent, add
the volume, and keep the maximal `blockTime`. -/
def stepTraders (m : List (String × TraderAcc)) (tx : Transaction) : List (String × TraderAcc) :=
  let volume := |tx.changeAmount| / (10 ^ 9 : ℚ)
  let old := (alookup m tx.owner).getD { volume := 0, lastTx := 0 }
  jsUpsert m tx.owner
    { volume := old.volume + volume,
      lastTx := if tx.blockTime > old.lastTx then tx.blockTime else old.lastTx }

/-- Mutable state of the `fetchTopTraders` pagination loop, plus the
ghost trace fields `scanned` and `fetches`. -/
structure TradersState where
  walletVolumes : List (String × TraderAcc)
  transactionsProcessed : Nat
  offset : Nat
  scanned : List Transaction
  fetches : Nat
deriving DecidableEq

/-- Initial state of the `fetchTopTraders` loop. -/
def tradersInit : TradersState :=
  { walletVolumes := [], transactionsProcessed := 0, offset := 0, scanned := [], fetches := 0 }

/-- The `while (transactionsProcessed < maxTransactionsToProcess)` loop of
`fetchTopTraders` (`/api/traders.ts` lines 48-86): fetch a page, stop on
an empty page, accumulate every record, stop once `transactionsProcessed`
reaches the reported `total`; a failed fetch aborts with the generic
error. -/
def tradersLoop : List (Fetch Transaction) → TradersState → Except String TradersState
  | [], st => .ok st
  | page :: rest, st =>
    if st.transactionsProcessed < 1000 then
      match page with
      | .fail => .error "Failed to fetch transfer data from Solscan."
      | .ok dat total =>
        if dat.length = 0 then .ok st
        else
          let st' : TradersState :=
            { walletVolumes := dat.foldl stepTraders st.walletVolumes,
              transactionsProcessed := st.transactionsProcessed + dat.length,
              offset := st.offset + 50,
              scanned := st.scanned ++ dat,
              fetches := st.fetches + 1 }
          if total ≤ st'.transactionsProcessed then .ok st'
          else tradersLoop rest st'
    else .ok st

/-- One row of the `/api/traders` response. -/
structure TraderRow where
  wallet : String
  volume : ℚ
  lastTx : Nat
deriving DecidableEq

/-- `Object.entries(walletVolumes).map(...).sort((a, b) => b.volume - a.volume)`
(`/api/traders.ts` lines 88-94): a stable sort, descending by volume. -/
def sortedTradersOf (m : List (String × TraderAcc)) : List TraderRow :=
  (m.map (fun e => { wallet := e.1, volume := e.2.volume, lastTx := e.2.lastTx })).mergeSort
    (fun a b => decide (b.volume ≤ a.volume))

/-- `fetchTopTraders` of `/api/traders.ts` (lines 33-97): run the
pagination loop, then sort the accumulated wallets by volume descending
and truncate with `slice(0, limit)`. -/
def fetchTopTraders (pages : List (Fetch Transaction)) (limit : Option Int) :
    Except String (List TraderRow) :=
  (tradersLoop pages tradersInit).map fun st =>
    jsSliceTo (sortedTradersOf st.walletVolumes) limit

/-- The `/api/traders.ts` request handler (lines 99-116): 400 on a
missing/empty token, 200 with the aggregation result, 500 with the thrown
error's message. -/
def tradersHandler (q : Query) (pages : List (Fetch Transaction)) : Resp TraderRow :=
  match q.token with
  | none => .badRequest "Token address is required."
  | some tok =>
    if tok = "" then .badRequest "Token address is required."
    else
      match fetchTopTraders pages (jsParseInt (q.limit.getD "50")) with
      | .ok traders => .ok traders
      | .error e => .serverError e

/-- One iteration of the record loop of `fetchActiveWallets`
(`/api/interval.ts` lines 58-62): for a record inside `[from, to]`,
set the wallet's `lastTx` when absent or improved. -/
def stepInterval (fromT toT : Option Int) (m : List (String × Nat)) (tx : Transaction) :
    List (String × Nat) :=
  if jleNI tx.blockTime toT && jgeNI tx.blockTime fromT then
    match alookup m tx.owner with
    | none => jsUpsert m tx.owner tx.blockTime
    | some cur => if tx.blockTime > cur then jsUpsert m tx.owner tx.blockTime else m
  else m

/-- The `for (const tx of response.data.data)` loop of `fetchActiveWallets`
(`/api/interval.ts` lines 51-63): stop at the first record with
`blockTime < from` (returning `false` for `continueFetching`), otherwise
apply `stepInterval`.  Also returns the trace of records iterated over,
the stopping record included. -/
def scanPage (fromT toT : Option Int) (m : List (String × Nat)) :
    List Transaction → List (String × Nat) × List Transaction × Bool
  | [] => (m, [], true)
  | tx :: rest =>
    if jltNI tx.blockTime fromT then (m, [tx], false)
    else
      let res := scanPage fromT toT (stepInterval fromT toT m tx) rest
      (res.1, tx :: res.2.1, res.2.2)

/-- Mutable state of the `fetchActiveWallets` pagination loop, plus the
ghost trace fields. -/
structure IntervalState where
  activeWallets : List (String × Nat)
  offset : Nat
  scanned : List Transaction
  fetches : Nat
deriving DecidableEq

/-- Initial state of the `fetchActiveWallets` loop. -/
def intervalInit : IntervalState :=
  { activeWallets := [], offset := 0, scanned := [], fetches := 0 }

/-- The `while (continueFetching)` loop of `fetchActiveWallets`
(`/api/interval.ts` lines 35-74): fetch a page, stop on an empty page,
scan its records (possibly short-circuiting on `blockTime < from`),
advance the offset and stop once `offset >= total`; a failed fetch
aborts with the generic error. -/
def intervalLoop (fromT toT : Option Int) :
    List (Fetch Transaction) → IntervalState → Except String IntervalState
  | [], st => .ok st
  | page :: rest, st =>
    match page with
    | .fail => .error "Failed to fetch transfer data from Solscan."
    | .ok dat total =>
      if dat.length = 0 then .ok st
      else
        let res := scanPage fromT toT st.activeWallets dat
        let st' : IntervalState :=
          { activeWallets := res.1,
            offset := st.offset + 50,
            scanned := st.scanned ++ res.2.1,
            fetches := st.fetches + 1 }
        if !res.2.2 then .ok st'
        else if total ≤ st'.offset then .ok st'
        else intervalLoop fromT toT rest st'

/-- One row of the `/api/interval` response. -/
structure ActiveRow where
  wallet : String
  lastTx : Nat
deriving DecidableEq

/-- `fetchActiveWallets` of `/api/interval.ts` (lines 24-80): run the
pagination loop and list the map's entries in insertion order. -/
def fetchActiveWallets (pages : List (Fetch Transaction)) (fromT toT : Option Int) :
    Except String (List ActiveRow) :=
  (intervalLoop fromT toT pages intervalInit).map fun st =>
    st.activeWallets.map fun e => { wallet := e.1, lastTx := e.2 }

/-- The `/api/interval.ts` request handler (lines 83-107): 400 on a
missing/empty token or a missing/empty `from`/`to`, 200 with the
aggregation result, 500 with the thrown error's message. -/
def intervalHandler (q : Query) (pages : List (Fetch Transaction)) : Resp ActiveRow :=
  match q.token with
  | none => .badRequest "Token address is required."
  | some tok =>
    if tok = "" then .badRequest "Token address is required."
    else if q.fromQ = none ∨ q.fromQ = some "" ∨ q.toQ = none ∨ q.toQ = some "" then
      .badRequest "A time range (from, to) is required."
    else
      match fetchActiveWallets pages (jsParseInt ((q.fromQ).getD ""))
          (jsParseInt ((q.toQ).getD "")) with
      | .ok wallets => .ok wallets
      | .error e => .serverError e

/-- One record of the pro-API `token/holders` response (the fields the
code reads; `address`, `amount`, `rank` are never used). -/
structure Holder where
  uiAmount : ℚ
  owner : String
deriving DecidableEq

/-- One row of the `/api/holders` response. -/
structure HolderRow where
  wallet : String
  amount : ℚ
deriving DecidableEq

/-- Mutable state of the `fetchHolders` pagination loop, plus the ghost
trace fields. -/
structure HoldersState where
  holders : List HolderRow
  offset : Nat
  scanned : List Holder
  fetches : Nat
deriving DecidableEq

/-- Initial state of the `fetchHolders` loop. -/
def holdersInit : HoldersState :=
  { holders := [], offset := 0, scanned := [], fetches := 0 }

/-- The `while (holders.length < limit)` loop of `fetchHolders`
(`/api/holders.ts` lines 97-128): fetch a page, stop on an empty page,
keep the records with `uiAmount >= minAmount` as `{wallet, amount}` rows,
stop once the limit is reached or `offset + pageSize >= total`; a failed
fetch aborts with the generic error. -/
def holdersLoop (limit : Option Int) (minAmount : Option ℚ) :
    List (Fetch Holder) → HoldersState → Except String HoldersState
  | [], st => .ok st
  | page :: rest, st =>
    if jltNI st.holders.length limit then
      match page with
      | .fail => .error "Failed to fetch holder data from Solscan."
      | .ok dat total =>
        if dat.length = 0 then .ok st
        else
          let filtered := dat.filter fun h => jgeQ h.uiAmount minAmount
          let st' : HoldersState :=
            { holders := st.holders ++ filtered.map fun h => { wallet := h.owner, amount := h.uiAmount },
              offset := st.offset,
              scanned := st.scanned ++ dat,
              fetches := st.fetches + 1 }
          if jgeNI st'.holders.length limit || total ≤ st.offset + 50 then .ok st'
          else holdersLoop limit minAmount rest { st' with offset := st.offset + 50 }
    else .ok st

/-- `fetchHolders` of `/api/holders.ts` (lines 87-131): run the
pagination loop and truncate with `slice(0, limit)`. -/
def fetchHolders (pages : List (Fetch Holder)) (limit : Option Int) (minAmount : Option ℚ) :
    Except String (List HolderRow) :=
  (holdersLoop limit minAmount pages holdersInit).map fun st =>
    jsSliceTo st.holders limit

/-- The `/api/holders.ts` request handler (lines 134-155): 400 on a
missing/empty token, 200 with the aggregation result, 500 with the thrown
error's message; `limit` defaults to `'100'`, `minAmount` to `'0'`. -/
def holdersHandler (q : Query) (pages : List (Fetch Holder)) : Resp HolderRow :=
  match q.token with
  | none => .badRequest "Token address is required."
  | some tok =>
    if tok = "" then .badRequest "Token address is required."
    else
      match fetchHolders pages (jsParseInt (q.limit.getD "100"))
          (jsParseFloat (q.minAmount.getD "0")) with
      | .ok holders => .ok holders
      | .error e => .serverError e

end ProApi

namespace PublicApi

open ProApi (Holder HolderRow HoldersState holdersInit TraderRow ActiveRow IntervalState intervalInit)

/-- One record of the public-API `token/transactions` response (the
fields the code reads). -/
structure PubTx where
  signer : List String
  blockTime : Nat
deriving DecidableEq

/-- Result of one paged GET against the public API: the page's record
array, or a thrown transport/non-2xx error. -/
inductive FetchP (α : Type) where
  | ok (dat : List α)
  | fail
deriving DecidableEq

/-- Per-wallet accumulator of the public `fetchTopTraders`
(`walletCounts` values). -/
structure PubAcc where
  count : Nat
  lastTx : Nat
deriving DecidableEq

/-- One iteration of the record loop of the public `fetchTopTraders`
(`/api/traders.js` lines 31-43): take `tx.signer[0]` as the wallet, skip
falsy wallets (missing or empty), count the transaction and keep the
maximal `blockTime`. -/
def stepTradersPub (m : List (String × PubAcc)) (tx : PubTx) : List (String × PubAcc) :=
  match tx.signer.head? with
  | none => m
  | some wallet =>
    if wallet = "" then m
    else
      let old := (alookup m wallet).getD { count := 0, lastTx := 0 }
      jsUpsert m wallet
        { count := old.count + 1,
          lastTx := if tx.blockTime > old.lastTx then tx.blockTime else old.lastTx }

/-- Mutable state of the public `fetchTopTraders` pagination loop, plus
the ghost trace fields. -/
structure PubTradersState where
  walletCounts : List (String × PubAcc)
  offset : Nat
  scanned : List PubTx
  fetches : Nat
deriving DecidableEq

/-- Initial state of the public `fetchTopTraders` loop. -/
def pubTradersInit : PubTradersState :=
  { walletCounts := [], offset := 0, scanned := [], fetches := 0 }

/-- The `while (offset < maxTransactionsToProcess)` loop of the public
`fetchTopTraders` (`/api/traders.js` lines 17-51): fetch a page, stop on
an empty page, accumulate every record, stop on a short page
(`data.length < pageSize`), otherwise advance the offset; a failed fetch
aborts with the generic error. -/
def tradersLoopPub : List (FetchP PubTx) → PubTradersState → Except String PubTradersState
  | [], st => .ok st
  | page :: rest, st =>
    if st.offset < 500 then
      match page with
      | .fail => .error "Failed to fetch transaction data from Solscan."
      | .ok dat =>
        if dat.length = 0 then .ok st
        else
          let st' : PubTradersState :=
            { walletCounts := dat.foldl stepTradersPub st.walletCounts,
              offset := st.offset,
              scanned := st.scanned ++ dat,
              fetches := st.fetches + 1 }
          if dat.length < 50 then .ok st'
          else tradersLoopPub rest { st' with offset := st.offset + 50 }
    else .ok st

/-- `Object.entries(walletCounts).map(...).sort((a, b) => b.volume - a.volume)`
(`/api/traders.js` lines 53-59): `volume` is the transaction count. -/
def sortedTradersPubOf (m : List (String × PubAcc)) : List TraderRow :=
  (m.map (fun e => { wallet := e.1, volume := (e.2.count : ℚ), lastTx := e.2.lastTx })).mergeSort
    (fun a b => decide (b.volume ≤ a.volume))

/-- The public `fetchTopTraders` of `/api/traders.js` (lines 11-62): run
the pagination loop, then sort by count descending and truncate with
`slice(0, limit)`. -/
def fetchTopTradersPub (pages : List (FetchP PubTx)) (limit : Option Int) :
    Except String (List TraderRow) :=
  (tradersLoopPub pages pubTradersInit).map fun st =>
    jsSliceTo (sortedTradersPubOf st.walletCounts) limit

/-- One iteration of the record loop of the public `fetchActiveWallets`
(`/api/interval.js` lines 108-113): take `tx.signer[0]` as the wallet;
for a truthy wallet with `blockTime <= to`, set the wallet's `lastTx`
when absent or improved. -/
def stepIntervalJS (toT : Option Int) (m : List (String × Nat)) (tx : PubTx) :
    List (String × Nat) :=
  match tx.signer.head? with
  | none => m
  | some wallet =>
    if wallet = "" then m
    else if jleNI tx.blockTime toT then
      match alookup m wallet with
      | none => jsUpsert m wallet tx.blockTime
      | some cur => if tx.blockTime > cur then jsUpsert m wallet tx.blockTime else m
    else m

/-- The `for (const tx of data)` loop of the public `fetchActiveWallets`
(`/api/interval.js` lines 103-114): stop at the first record with
`blockTime < from`, otherwise apply `stepIntervalJS`.  Also returns the
trace of records iterated over, the stopping record included. -/
def scanPageJS (fromT toT : Option Int) (m : List (String × Nat)) :
    List PubTx → List (String × Nat) × List PubTx × Bool
  | [] => (m, [], true)
  | tx :: rest =>
    if jltNI tx.blockTime fromT then (m, [tx], false)
    else
      let res := scanPageJS fromT toT (stepIntervalJS toT m tx) rest
      (res.1, tx :: res.2.1, res.2.2)

/-- Mutable state of the public `fetchActiveWallets` pagination loop,
plus the ghost trace fields. -/
structure IntervalStateJS where
  activeWallets : List (String × Nat)
  offset : Nat
  scanned : List PubTx
  fetches : Nat
deriving DecidableEq

/-- Initial state of the public `fetchActiveWallets` loop. -/
def intervalInitJS : IntervalStateJS :=
  { activeWallets := [], offset := 0, scanned := [], fetches := 0 }

/-- The `while (continueFetching)` loop of the public
`fetchActiveWallets` (`/api/interval.js` lines 90-122): fetch a page,
stop on an empty page, scan its records (possibly short-circuiting on
`blockTime < from`), stop on a short page; a failed fetch aborts with
the generic error. -/
def intervalLoopJS (fromT toT : Option Int) :
    List (FetchP PubTx) → IntervalStateJS → Except String IntervalStateJS
  | [], st => .ok st
  | page :: rest, st =>
    match page with
    | .fail => .error "Failed to fetch transaction data from Solscan."
    | .ok dat =>
      if dat.length = 0 then .ok st
      else
        let res := scanPageJS fromT toT st.activeWallets dat
        let st' : IntervalStateJS :=
          { activeWallets := res.1,
            offset := st.offset,
            scanned := st.scanned ++ res.2.1,
            fetches := st.fetches + 1 }
        if !res.2.2 then .ok st'
        else if dat.length < 50 then .ok st'
        else intervalLoopJS fromT toT rest { st' with offset := st.offset + 50 }

/-- The public `fetchActiveWallets` of `/api/interval.js` (lines 84-125):
run the pagination loop and list the map's entries in insertion order. -/
def fetchActiveWalletsJS (pages : List (FetchP PubTx)) (fromT toT : Option Int) :
    Except String (List ActiveRow) :=
  (intervalLoopJS fromT toT pages intervalInitJS).map fun st =>
    st.activeWallets.map fun e => { wallet := e.1, lastTx := e.2 }

/-- The `while (holders.length < limit)` loop of the public
`fetchHolders` (`/api/holders.js` lines 15-56): fetch a page, stop on an
empty page, keep the records with `uiAmount >= minAmount`, stop once the
limit is reached or on a short page (`data.length < pageSize`); a failed
fetch aborts with the generic error. -/
def holdersLoopJS (limit : Option Int) (minAmount : Option ℚ) :
    List (FetchP Holder) → HoldersState → Except String HoldersState
  | [], st => .ok st
  | page :: rest, st =>
    if jltNI st.holders.length limit then
      match page with
      | .fail => .error "Failed to fetch holder data from Solscan."
      | .ok dat =>
        if dat.length = 0 then .ok st
        else
          let filtered := dat.filter fun h => jgeQ h.uiAmount minAmount
          let st' : HoldersState :=
            { holders := st.holders ++ filtered.map fun h => { wallet := h.owner, amount := h.uiAmount },
              offset := st.offset,
              scanned := st.scanned ++ dat,
              fetches := st.fetches + 1 }
          if jgeNI st'.holders.length limit || dat.length < 50 then .ok st'
          else holdersLoopJS limit minAmount rest { st' with offset := st.offset + 50 }
    else .ok st

/-- The public `fetchHolders` of `/api/holders.js` (lines 10-58): run the
pagination loop and truncate with `slice(0, limit)`. -/
def fetchHoldersJS (pages : List (FetchP Holder)) (limit : Option Int) (minAmount : Option ℚ) :
    Except String (List HolderRow) :=
  (holdersLoopJS limit minAmount pages holdersInit).map fun st =>
    jsSliceTo st.holders limit

end PublicApi

/-! ## Generic lemmas about the insertion-ordered map -/

theorem alookup_append {β : Type} (m m₂ : List (String × β)) (k : String) :
    alookup (m ++ m₂) k =
      match alookup m k with
      | some v => some v
      | none => alookup m₂ k := by
  induction m with
  | nil => simp [alookup]
  | cons e rest ih =>
    obtain ⟨k', v⟩ := e
    by_cases h : k' = k <;> simp [alookup, h, ih]

theorem alookup_jsUpsert_self {β : Type} (m : List (String × β)) (k : String) (v : β) :
    alookup (jsUpsert m k v) k = some v := by
  induction m with
  | nil => simp [jsUpsert, alookup]
  | cons e rest ih =>
    obtain ⟨k', w⟩ := e
    by_cases h : k' = k
    · subst h
      simp [jsUpsert, alookup]
    · simp [jsUpsert, alookup, h, ih]

theorem alookup_jsUpsert_ne {β : Type} (m : List (String × β)) {k w : String} (v : β)
    (hw : w ≠ k) :
    alookup (jsUpsert m k v) w = alookup m w := by
  induction m with
  | nil => simp [jsUpsert, alookup, Ne.symm hw]
  | cons e rest ih =>
    obtain ⟨k', u⟩ := e
    by_cases h : k' = k
    · subst h
      simp [jsUpsert, alookup, Ne.symm hw]
    · by_cases h2 : k' = w
      · subst h2
        simp [jsUpsert, alookup, h]
      · simp [jsUpsert, alookup, h, h2, ih]

theorem isSome_alookup {β : Type} (m : List (String × β)) (k : String) :
    (alookup m k).isSome ↔ k ∈ akeys m := by
  induction m with
  | nil => simp [alookup, akeys]
  | cons e rest ih =>
    obtain ⟨k', v⟩ := e
    by_cases h : k' = k
    · subst h
      simp [alookup, akeys]
    · simp [alookup, akeys, h, ih, Ne.symm h]

theorem akeys_jsUpsert {β : Type} (m : List (String × β)) (k : String) (v : β) :
    akeys (jsUpsert m k v) = if (alookup m k).isSome then akeys m else akeys m ++ [k] := by
  induction m with
  | nil => simp [jsUpsert, alookup, akeys]
  | cons e rest ih =>
    obtain ⟨k', w⟩ := e
    by_cases h : k' = k
    · subst h
      simp [jsUpsert, alookup, akeys]
    · have hk : akeys (jsUpsert ((k', w) :: rest) k v) = k' :: akeys (jsUpsert rest k v) := by
        simp [jsUpsert, akeys, h]
      rw [hk, ih]
      by_cases h2 : (alookup rest k).isSome <;> simp [alookup, akeys, h, h2]

theorem nodup_akeys_jsUpsert {β : Type} (m : List (String × β)) (k : String) (v : β)
    (hnd : (akeys m).Nodup) : (akeys (jsUpsert m k v)).Nodup := by
  rw [akeys_jsUpsert]
  by_cases h : (alookup m k).isSome
  · simpa [h] using hnd
  · have hk : k ∉ akeys m := fun hmem => h ((isSome_alookup m k).mpr hmem)
    simp [h, List.nodup_append, hnd, hk]

theorem alookup_of_mem_nodup {β : Type} {m : List (String × β)}
    (hnd : (akeys m).Nodup) {e : String × β} (he : e ∈ m) :
    alookup m e.1 = some e.2 := by
  induction m with
  | nil => simp at he
  | cons hd rest ih =>
    obtain ⟨k', v⟩ := hd
    simp only [akeys, List.map_cons, List.nodup_cons] at hnd
    rcases List.mem_cons.mp he with rfl | hrest
    · simp [alookup]
    · have h1 : k' ≠ e.1 := by
        intro h
        exact hnd.1 (h ▸ (List.mem_map.mpr ⟨e, hrest, rfl⟩))
      simp only [alookup, if_neg h1]
      exact ih hnd.2 hrest

theorem mem_of_alookup_eq_some {β : Type} {m : List (String × β)} {k : String} {v : β}
    (h : alookup m k = some v) : (k, v) ∈ m := by
  induction m with
  | nil => simp [alookup] at h
  | cons hd rest ih =>
    obtain ⟨k', w⟩ := hd
    by_cases he : k' = k
    · subst he
      simp only [alookup, if_pos rfl, Option.some.injEq, if_true, eq_self_iff_true] at h
      simp [h]
    · simp only [alookup, if_neg he] at h
      exact List.mem_cons_of_mem _ (ih h)

/-! ## Generic per-record map update and its fold lemma

Every per-record accumulator update in the repository has the shape
`mapStep key upd`: compute an optional wallet key from the record, leave
the map alone when there is none, otherwise look the wallet up and
either leave the map alone (`upd` returns `none`) or store the updated
value. -/

def mapStep {α β : Type} (key : α → Option String) (upd : Option β → α → Option β)
    (m : List (String × β)) (r : α) : List (String × β) :=
  match key r with
  | none => m
  | some k =>
    match upd (alookup m k) r with
    | none => m
    | some v => jsUpsert m k v

/-- The effect of one `mapStep` on the value stored at a single key. -/
def applyUpd {α β : Type} (upd : Option β → α → Option β) (o : Option β) (r : α) : Option β :=
  match upd o r with
  | none => o
  | some v => some v

theorem alookup_mapStep_key {α β : Type} (key : α → Option String)
    (upd : Option β → α → Option β) (m : List (String × β)) (r : α) {w : String}
    (hk : key r = some w) :
    alookup (mapStep key upd m r) w = applyUpd upd (alookup m w) r := by
  simp only [mapStep, applyUpd, hk]
  cases hu : upd (alookup m w) r with
  | none => simp
  | some v => simp [alookup_jsUpsert_self]

theorem alookup_mapStep_ne {α β : Type} (key : α → Option String)
    (upd : Option β → α → Option β) (m : List (String × β)) (r : α) {w : String}
    (hk : key r ≠ some w) :
    alookup (mapStep key upd m r) w = alookup m w := by
  simp only [mapStep]
  cases hkr : key r with
  | none => rfl
  | some k =>
    show alookup
        (match upd (alookup m k) r with
        | none => m
        | some v => jsUpsert m k v) w = alookup m w
    cases hu : upd (alookup m k) r with
    | none => rfl
    | some v =>
      have hwk : w ≠ k := fun h => hk (h ▸ hkr)
      exact alookup_jsUpsert_ne m v hwk

theorem alookup_foldl_mapStep {α β : Type} (key : α → Option String)
    (upd : Option β → α → Option β) (rs : List α) (m : List (String × β)) (w : String) :
    alookup (rs.foldl (mapStep key upd) m) w =
      (rs.filter fun r => decide (key r = some w)).foldl (applyUpd upd) (alookup m w) := by
  induction rs generalizing m with
  | nil => simp
  | cons r rs ih =>
    by_cases hk : key r = some w
    · simp [List.filter_cons, hk, ih, alookup_mapStep_key key upd m r hk]
    · simp [List.filter_cons, hk, ih, alookup_mapStep_ne key upd m r hk]

theorem nodup_akeys_mapStep {α β : Type} (key : α → Option String)
    (upd : Option β → α → Option β) (m : List (String × β)) (r : α)
    (hnd : (akeys m).Nodup) : (akeys (mapStep key upd m r)).Nodup := by
  unfold mapStep
  cases key r with
  | none => exact hnd
  | some k =>
    show (akeys
        (match upd (alookup m k) r with
        | none => m
        | some v => jsUpsert m k v)).Nodup
    cases upd (alookup m k) r with
    | none => exact hnd
    | some v => exact nodup_akeys_jsUpsert m k v hnd

theorem nodup_akeys_foldl_mapStep {α β : Type} (key : α → Option String)
    (upd : Option β → α → Option β) (rs : List α) (m : List (String × β))
    (hnd : (akeys m).Nodup) : (akeys (rs.foldl (mapStep key upd) m)).Nodup := by
  induction rs generalizing m with
  | nil => exact hnd
  | cons r rs ih => exact ih _ (nodup_akeys_mapStep key upd m r hnd)

/-- When `upd` always stores `g` of the previous value (defaulting to
`d`), folding the per-key effect over a nonempty contribution list stores
exactly the `g`-fold of the contributions. -/
theorem foldl_applyUpd_eq {α β : Type} {upd : Option β → α → Option β} {g : β → α → β}
    {d : β} (hshape : ∀ o r, applyUpd upd o r = some (g (o.getD d) r))
    (C : List α) (o : Option β) (hC : C ≠ []) :
    C.foldl (applyUpd upd) o = some (C.foldl g (o.getD d)) := by
  induction C generalizing o with
  | nil => exact absurd rfl hC
  | cons c C ih =>
    rcases C with _ | ⟨c2, C2⟩
    · simp [hshape]
    · rw [List.foldl_cons, hshape, ih _ (List.cons_ne_nil c2 C2)]
      simp


/-! ## Small helper lemmas -/

theorem ite_gt_eq_max (bt l : Nat) : (if bt > l then bt else l) = max l bt := by
  rcases Nat.lt_or_ge l bt with h | h
  · rw [if_pos h, Nat.max_eq_right (Nat.le_of_lt h)]
  · rw [if_neg (not_lt.mpr h), Nat.max_eq_left h]

theorem le_foldl_max (l : List Nat) (a : Nat) : a ≤ l.foldl max a := by
  induction l generalizing a with
  | nil => simp
  | cons b l ih => exact le_trans (Nat.le_max_left a b) (ih (max a b))

theorem mem_le_foldl_max {l : List Nat} {b : Nat} (hb : b ∈ l) (a : Nat) :
    b ≤ l.foldl max a := by
  induction l generalizing a with
  | nil => simp at hb
  | cons c l ih =>
    rcases List.mem_cons.mp hb with rfl | h
    · exact le_trans (Nat.le_max_right a b) (le_foldl_max l _)
    · exact ih h _

theorem foldl_max_mem (l : List Nat) (a : Nat) : l.foldl max a ∈ a :: l := by
  induction l generalizing a with
  | nil => simp
  | cons b l ih =>
    rcases List.mem_cons.mp (ih (max a b)) with h | h
    · rcases max_choice a b with hm | hm
      · simp only [List.foldl_cons]
        rw [h, hm]
        exact List.mem_cons_self _ _
      · simp only [List.foldl_cons]
        rw [h, hm]
        exact List.mem_cons_of_mem _ (List.mem_cons_self _ _)
    · exact List.mem_cons_of_mem _ (List.mem_cons_of_mem _ h)

theorem foldl_max_zero_mem {l : List Nat} (hl : l ≠ []) : l.foldl max 0 ∈ l := by
  rcases List.mem_cons.mp (foldl_max_mem l 0) with h | h
  · rcases l with _ | ⟨b, l⟩
    · exact absurd rfl hl
    · have hb : b ≤ 0 := by
        have := mem_le_foldl_max (List.mem_cons_self b l) 0
        omega
      have hb0 : b = 0 := Nat.le_zero.mp hb
      rw [h, ← hb0]
      exact List.mem_cons_self _ _
  · exact h

theorem jsSliceTo_sublist {α : Type} (xs : List α) (e : Option Int) :
    (jsSliceTo xs e).Sublist xs := by
  cases e with
  | none => simp [jsSliceTo]
  | some v =>
    unfold jsSliceTo
    by_cases h : v < 0 <;> simp [h, List.take_sublist]

theorem jsSliceTo_length_le (xs : List α) (l : Int) (hl : 0 ≤ l) :
    ((jsSliceTo xs (some l)).length : Int) ≤ l := by
  unfold jsSliceTo
  have hneg : ¬ l < 0 := not_lt.mpr hl
  simp only [hneg, if_false, List.length_take]
  have h1 : min l.toNat xs.length ≤ l.toNat := Nat.min_le_left _ _
  omega

theorem jsSliceTo_eq_self (xs : List α) (l : Int) (hlen : (xs.length : Int) ≤ l) :
    jsSliceTo xs (some l) = xs := by
  have hl : 0 ≤ l := le_trans (by positivity) hlen
  unfold jsSliceTo
  have hneg : ¬ l < 0 := not_lt.mpr hl
  simp only [hneg, if_false]
  apply List.take_of_length_le
  omega

theorem jsSliceTo_some_length (xs : List α) (l : Int) (hl : 0 ≤ l) :
    (jsSliceTo xs (some l)).length = min l.toNat xs.length := by
  unfold jsSliceTo
  have hneg : ¬ l < 0 := not_lt.mpr hl
  simp [hneg, List.length_take]

/-! ## Instantiating the generic machinery: pro-API traders -/

namespace ProApi

/-- The wallet key a traders record is accumulated under. -/
def keyTraders (tx : Transaction) : Option String :=
  some tx.owner

/-- The per-record value update of `stepTraders`. -/
def updTraders (o : Option TraderAcc) (tx : Transaction) : Option TraderAcc :=
  let old := o.getD { volume := 0, lastTx := 0 }
  some { volume := old.volume + |tx.changeAmount| / (10 ^ 9 : ℚ),
         lastTx := if tx.blockTime > old.lastTx then tx.blockTime else old.lastTx }

theorem stepTraders_eq : stepTraders = mapStep keyTraders updTraders := by
  funext m tx
  rfl

/-- The total per-record accumulator update of `stepTraders`. -/
def accTraders (acc : TraderAcc) (tx : Transaction) : TraderAcc :=
  { volume := acc.volume + |tx.changeAmount| / (10 ^ 9 : ℚ),
    lastTx := if tx.blockTime > acc.lastTx then tx.blockTime else acc.lastTx }

theorem applyUpd_updTraders (o : Option TraderAcc) (tx : Transaction) :
    applyUpd updTraders o tx = some (accTraders (o.getD { volume := 0, lastTx := 0 }) tx) :=
  rfl

theorem accTraders_foldl_volume (C : List Transaction) (a : TraderAcc) :
    (C.foldl accTraders a).volume =
      a.volume + (C.map fun tx => |tx.changeAmount| / (10 ^ 9 : ℚ)).sum := by
  induction C generalizing a with
  | nil => simp
  | cons c C ih => simp [accTraders, ih, add_assoc]

theorem accTraders_foldl_lastTx (C : List Transaction) (a : TraderAcc) :
    (C.foldl accTraders a).lastTx = (C.map Transaction.blockTime).foldl max a.lastTx := by
  induction C generalizing a with
  | nil => simp
  | cons c C ih => simp [accTraders, ih, ite_gt_eq_max]

/-- `walletVolumes` after scanning a record stream, at one key: the fold
of the per-record update over the records of that wallet. -/
theorem alookup_scan_traders (S : List Transaction) (w : String) :
    alookup (S.foldl stepTraders []) w =
      (S.filter fun tx => decide (tx.owner = w)).foldl (applyUpd updTraders) none := by
  rw [stepTraders_eq, alookup_foldl_mapStep]
  have hf : (S.filter fun r => decide (keyTraders r = some w)) =
      (S.filter fun tx => decide (tx.owner = w)) := by
    apply List.filter_congr
    intro tx _
    simp [keyTraders]
  rw [hf]
  rfl

theorem nodup_scan_traders (S : List Transaction) :
    (akeys (S.foldl stepTraders [])).Nodup := by
  rw [stepTraders_eq]
  exact nodup_akeys_foldl_mapStep _ _ S [] (by simp [akeys])

/-- Sum/maximum characterisation of the accumulated value of one wallet. -/
theorem alookup_scan_traders_value (S : List Transaction) (w : String)
    {v : TraderAcc} (hv : alookup (S.foldl stepTraders []) w = some v) :
    (S.filter fun tx => decide (tx.owner = w)) ≠ [] ∧
    v.volume = ((S.filter fun tx => decide (tx.owner = w)).map
        fun tx => |tx.changeAmount| / (10 ^ 9 : ℚ)).sum ∧
    v.lastTx = ((S.filter fun tx => decide (tx.owner = w)).map
        Transaction.blockTime).foldl max 0 := by
  rw [alookup_scan_traders] at hv
  set C := S.filter fun tx => decide (tx.owner = w) with hC
  rcases Decidable.em (C = []) with hnil | hne
  · rw [hnil] at hv
    simp at hv
  · rw [foldl_applyUpd_eq applyUpd_updTraders C none hne] at hv
    have hv' : C.foldl accTraders { volume := 0, lastTx := 0 } = v := by
      simpa using hv
    refine ⟨hne, ?_, ?_⟩
    · rw [← hv', accTraders_foldl_volume]
      simp
    · rw [← hv', accTraders_foldl_lastTx]

theorem isSome_scan_traders (S : List Transaction) (w : String) :
    (alookup (S.foldl stepTraders []) w).isSome ↔
      (S.filter fun tx => decide (tx.owner = w)) ≠ [] := by
  rw [alookup_scan_traders]
  set C := S.filter fun tx => decide (tx.owner = w) with hC
  rcases Decidable.em (C = []) with hnil | hne
  · simp [hnil]
  · rw [foldl_applyUpd_eq applyUpd_updTraders C none hne]
    simp [hne]

/-- Anything the traders loop returns extends the incoming state: the new
`scanned` suffix is what the accumulator was folded over, and the
record counter advances in step with `scanned`. -/
theorem tradersLoop_inv (pages : List (Fetch Transaction)) (st st' : TradersState)
    (h : tradersLoop pages st = .ok st')
    (hm : st.walletVolumes = st.scanned.foldl stepTraders [])
    (hp : st.transactionsProcessed = st.scanned.length) :
    st'.walletVolumes = st'.scanned.foldl stepTraders [] ∧
      st'.transactionsProcessed = st'.scanned.length := by
  induction pages generalizing st with
  | nil =>
    simp only [tradersLoop] at h
    cases h
    exact ⟨hm, hp⟩
  | cons page rest ih =>
    cases page with
    | fail =>
      simp only [tradersLoop] at h
      by_cases hcap : st.transactionsProcessed < 1000
      · rw [if_pos hcap] at h
        simp at h
      · rw [if_neg hcap] at h
        cases h
        exact ⟨hm, hp⟩
    | ok dat total =>
      simp only [tradersLoop] at h
      by_cases hcap : st.transactionsProcessed < 1000
      · rw [if_pos hcap] at h
        by_cases hemp : dat.length = 0
        · rw [if_pos hemp] at h
          cases h
          exact ⟨hm, hp⟩
        · rw [if_neg hemp] at h
          by_cases htot : total ≤ st.transactionsProcessed + dat.length
          · rw [if_pos htot] at h
            cases h
            exact ⟨by simp [hm, List.foldl_append], by simp [hp]⟩
          · rw [if_neg htot] at h
            exact ih _ h (by simp [hm, List.foldl_append]) (by simp [hp])
      · rw [if_neg hcap] at h
        cases h
        exact ⟨hm, hp⟩
end ProApi

/-! ## Sorting lemmas for trader rows -/

namespace ProApi

theorem mergeSort_volume_sorted (l : List TraderRow) :
    (l.mergeSort fun a b => decide (b.volume ≤ a.volume)).Pairwise
      fun a b => b.volume ≤ a.volume := by
  have h := @List.sorted_mergeSort TraderRow (fun a b => decide (b.volume ≤ a.volume))
    (fun a b c h1 h2 => by
      simp only [decide_eq_true_eq] at h1 h2 ⊢
      exact le_trans h2 h1)
    (fun a b => by
      simp only [Bool.or_eq_true, decide_eq_true_eq]
      exact le_total b.volume a.volume)
    l
  exact h.imp fun hab => of_decide_eq_true hab

theorem sortedTradersOf_sorted (m : List (String × TraderAcc)) :
    (sortedTradersOf m).Pairwise fun a b => b.volume ≤ a.volume := by
  unfold sortedTradersOf
  exact mergeSort_volume_sorted _

theorem sortedTradersOf_perm (m : List (String × TraderAcc)) :
    (sortedTradersOf m).Perm
      (m.map fun e => { wallet := e.1, volume := e.2.volume, lastTx := e.2.lastTx }) := by
  unfold sortedTradersOf
  exact List.mergeSort_perm _ _

/-- C4 helper: when every upstream page honours the requested page size,
the traders loop's record counter never exceeds 999 + 50. -/
theorem tradersLoop_processed_bound (pages : List (Fetch Transaction))
    (st st' : TradersState)
    (hpages : ∀ p ∈ pages, ∀ dat total, p = Fetch.ok dat total → dat.length ≤ 50)
    (h : tradersLoop pages st = .ok st') :
    st'.transactionsProcessed ≤ max st.transactionsProcessed 1049 := by
  induction pages generalizing st with
  | nil =>
    simp only [tradersLoop] at h
    cases h
    exact le_max_left _ _
  | cons page rest ih =>
    cases page with
    | fail =>
      simp only [tradersLoop] at h
      by_cases hcap : st.transactionsProcessed < 1000
      · rw [if_pos hcap] at h
        simp at h
      · rw [if_neg hcap] at h
        cases h
        exact le_max_left _ _
    | ok dat total =>
      have hlen : dat.length ≤ 50 :=
        hpages _ (List.mem_cons_self _ _) dat total rfl
      simp only [tradersLoop] at h
      by_cases hcap : st.transactionsProcessed < 1000
      · rw [if_pos hcap] at h
        by_cases hemp : dat.length = 0
        · rw [if_pos hemp] at h
          cases h
          exact le_max_left _ _
        · rw [if_neg hemp] at h
          by_cases htot : total ≤ st.transactionsProcessed + dat.length
          · rw [if_pos htot] at h
            cases h
            have : st.transactionsProcessed + dat.length ≤ 1049 := by omega
            exact le_trans this (le_max_right _ _)
          · rw [if_neg htot] at h
            have hrec := ih _ (fun p hp => hpages p (List.mem_cons_of_mem _ hp)) h
            have h1 : st.transactionsProcessed + dat.length ≤ 1049 := by omega
            simp only [max_le_iff] at hrec ⊢
            omega
      · rw [if_neg hcap] at h
        cases h
        exact le_max_left _ _

/-- A run of the traders loop from the initial state has an accumulator
with unique wallet keys. -/
theorem tradersLoop_nodup (pages : List (Fetch Transaction)) (st' : TradersState)
    (h : tradersLoop pages tradersInit = .ok st') :
    (akeys st'.walletVolumes).Nodup := by
  have hinv := tradersLoop_inv pages tradersInit st' h rfl rfl
  rw [hinv.1]
  exact nodup_scan_traders _
end ProApi

/-! ## Instantiating the generic machinery: public-API traders -/

namespace PublicApi

open ProApi (TraderRow)

/-- The wallet key a public traders record is accumulated under
(`tx.signer[0]`, skipped when falsy). -/
def keyTradersPub (tx : PubTx) : Option String :=
  match tx.signer.head? with
  | none => none
  | some w => if w = "" then none else some w

/-- The per-record value update of `stepTradersPub`. -/
def updTradersPub (o : Option PubAcc) (tx : PubTx) : Option PubAcc :=
  let old := o.getD { count := 0, lastTx := 0 }
  some { count := old.count + 1,
         lastTx := if tx.blockTime > old.lastTx then tx.blockTime else old.lastTx }

theorem stepTradersPub_eq : stepTradersPub = mapStep keyTradersPub updTradersPub := by
  funext m tx
  unfold stepTradersPub mapStep keyTradersPub updTradersPub
  cases tx.signer.head? with
  | none => rfl
  | some w => by_cases hw : w = "" <;> simp [hw]

/-- The total per-record accumulator update of `stepTradersPub`. -/
def accTradersPub (acc : PubAcc) (tx : PubTx) : PubAcc :=
  { count := acc.count + 1,
    lastTx := if tx.blockTime > acc.lastTx then tx.blockTime else acc.lastTx }

theorem applyUpd_updTradersPub (o : Option PubAcc) (tx : PubTx) :
    applyUpd updTradersPub o tx = some (accTradersPub (o.getD { count := 0, lastTx := 0 }) tx) :=
  rfl

theorem accTradersPub_foldl_count (C : List PubTx) (a : PubAcc) :
    (C.foldl accTradersPub a).count = a.count + C.length := by
  induction C generalizing a with
  | nil => simp
  | cons c C ih =>
    simp only [List.foldl_cons, ih, List.length_cons, accTradersPub]
    omega

theorem accTradersPub_foldl_lastTx (C : List PubTx) (a : PubAcc) :
    (C.foldl accTradersPub a).lastTx = (C.map PubTx.blockTime).foldl max a.lastTx := by
  induction C generalizing a with
  | nil => simp
  | cons c C ih => simp [accTradersPub, ih, ite_gt_eq_max]

theorem alookup_scan_tradersPub (S : List PubTx) (w : String) :
    alookup (S.foldl stepTradersPub []) w =
      (S.filter fun tx => decide (keyTradersPub tx = some w)).foldl
        (applyUpd updTradersPub) none := by
  rw [stepTradersPub_eq, alookup_foldl_mapStep]
  rfl

theorem nodup_scan_tradersPub (S : List PubTx) :
    (akeys (S.foldl stepTradersPub [])).Nodup := by
  rw [stepTradersPub_eq]
  exact nodup_akeys_foldl_mapStep _ _ S [] (by simp [akeys])

/-- Count/maximum characterisation of the accumulated value of one
wallet in the public traders variant. -/
theorem alookup_scan_tradersPub_value (S : List PubTx) (w : String)
    {v : PubAcc} (hv : alookup (S.foldl stepTradersPub []) w = some v) :
    (S.filter fun tx => decide (keyTradersPub tx = some w)) ≠ [] ∧
    v.count = (S.filter fun tx => decide (keyTradersPub tx = some w)).length ∧
    v.lastTx = ((S.filter fun tx => decide (keyTradersPub tx = some w)).map
        PubTx.blockTime).foldl max 0 := by
  rw [alookup_scan_tradersPub] at hv
  set C := S.filter fun tx => decide (keyTradersPub tx = some w) with hC
  rcases Decidable.em (C = []) with hnil | hne
  · rw [hnil] at hv
    simp at hv
  · rw [foldl_applyUpd_eq applyUpd_updTradersPub C none hne] at hv
    have hv' : C.foldl accTradersPub { count := 0, lastTx := 0 } = v := by
      simpa using hv
    refine ⟨hne, ?_, ?_⟩
    · rw [← hv', accTradersPub_foldl_count]
      simp
    · rw [← hv', accTradersPub_foldl_lastTx]

theorem isSome_scan_tradersPub (S : List PubTx) (w : String) :
    (alookup (S.foldl stepTradersPub []) w).isSome ↔
      (S.filter fun tx => decide (keyTradersPub tx = some w)) ≠ [] := by
  rw [alookup_scan_tradersPub]
  set C := S.filter fun tx => decide (keyTradersPub tx = some w) with hC
  rcases Decidable.em (C = []) with hnil | hne
  · simp [hnil]
  · rw [foldl_applyUpd_eq applyUpd_updTradersPub C none hne]
    simp [hne]

/-- The public traders loop folds the accumulator over its scanned trace. -/
theorem tradersLoopPub_inv (pages : List (FetchP PubTx)) (st st' : PubTradersState)
    (h : tradersLoopPub pages st = .ok st')
    (hm : st.walletCounts = st.scanned.foldl stepTradersPub []) :
    st'.walletCounts = st'.scanned.foldl stepTradersPub [] := by
  induction pages generalizing st with
  | nil =>
    simp only [tradersLoopPub] at h
    cases h
    exact hm
  | cons page rest ih =>
    cases page with
    | fail =>
      simp only [tradersLoopPub] at h
      by_cases hcap : st.offset < 500
      · rw [if_pos hcap] at h
        simp at h
      · rw [if_neg hcap] at h
        cases h
        exact hm
    | ok dat =>
      simp only [tradersLoopPub] at h
      by_cases hcap : st.offset < 500
      · rw [if_pos hcap] at h
        by_cases hemp : dat.length = 0
        · rw [if_pos hemp] at h
          cases h
          exact hm
        · rw [if_neg hemp] at h
          by_cases hshort : dat.length < 50
          · rw [if_pos hshort] at h
            cases h
            simp [hm, List.foldl_append]
          · rw [if_neg hshort] at h
            exact ih _ h (by simp [hm, List.foldl_append])
      · rw [if_neg hcap] at h
        cases h
        exact hm

/-- C4 helper: when every upstream page honours the requested page size,
the public traders loop scans at most 500 records; its offset cap also
bounds the number of page requests by 10. -/
theorem tradersLoopPub_scanned_bound (pages : List (FetchP PubTx)) (st st' : PubTradersState)
    (hpages : ∀ p ∈ pages, ∀ dat, p = FetchP.ok dat → dat.length ≤ 50)
    (h : tradersLoopPub pages st = .ok st')
    (hoff : 50 ∣ st.offset) :
    st'.scanned.length ≤ st.scanned.length + (500 - st.offset) := by
  induction pages generalizing st with
  | nil =>
    simp only [tradersLoopPub] at h
    cases h
    omega
  | cons page rest ih =>
    cases page with
    | fail =>
      simp only [tradersLoopPub] at h
      by_cases hcap : st.offset < 500
      · rw [if_pos hcap] at h
        simp at h
      · rw [if_neg hcap] at h
        cases h
        omega
    | ok dat =>
      have hlen : dat.length ≤ 50 := hpages _ (List.mem_cons_self _ _) dat rfl
      simp only [tradersLoopPub] at h
      by_cases hcap : st.offset < 500
      · rw [if_pos hcap] at h
        have hoff450 : st.offset ≤ 450 := by
          rcases hoff with ⟨c, hc⟩
          omega
        by_cases hemp : dat.length = 0
        · rw [if_pos hemp] at h
          cases h
          omega
        · rw [if_neg hemp] at h
          by_cases hshort : dat.length < 50
          · rw [if_pos hshort] at h
            cases h
            simp only [List.length_append]
            omega
          · rw [if_neg hshort] at h
            have hrec := ih _ (fun p hp => hpages p (List.mem_cons_of_mem _ hp)) h
              (by exact Dvd.dvd.add hoff (by norm_num))
            simp only [List.length_append] at hrec
            omega
      · rw [if_neg hcap] at h
        cases h
        omega

end PublicApi

/-! ## Instantiating the generic machinery: pro-API interval -/

namespace ProApi

/-- The wallet key an interval record is accumulated under: its owner,
provided the record lies inside the `[from, to]` window. -/
def keyInterval (fromT toT : Option Int) (tx : Transaction) : Option String :=
  if jleNI tx.blockTime toT && jgeNI tx.blockTime fromT then some tx.owner else none

/-- The per-record value update of `stepInterval`: store the new
`blockTime` when absent or strictly larger. -/
def updInterval (o : Option Nat) (tx : Transaction) : Option Nat :=
  match o with
  | none => some tx.blockTime
  | some cur => if tx.blockTime > cur then some tx.blockTime else none

theorem stepInterval_eq (fromT toT : Option Int) :
    stepInterval fromT toT = mapStep (keyInterval fromT toT) updInterval := by
  funext m tx
  unfold stepInterval mapStep keyInterval updInterval
  by_cases h : jleNI tx.blockTime toT && jgeNI tx.blockTime fromT
  · rw [if_pos h, if_pos h]
    cases halo : alookup m tx.owner with
    | none => simp [halo]
    | some cur => by_cases hgt : tx.blockTime > cur <;> simp [halo, hgt]
  · rw [if_neg h, if_neg h]

theorem applyUpd_updInterval (o : Option Nat) (tx : Transaction) :
    applyUpd updInterval o tx =
      some (if tx.blockTime > o.getD 0 then tx.blockTime else o.getD 0) := by
  cases o with
  | none =>
    simp only [applyUpd, updInterval, Option.getD_none]
    rcases Nat.eq_zero_or_pos tx.blockTime with hz | hp
    · simp [hz]
    · simp [hp]
  | some cur =>
    simp only [applyUpd, updInterval, Option.getD_some]
    by_cases hgt : tx.blockTime > cur <;> simp [hgt]

theorem foldl_ite_gt_eq_foldl_max (C : List Transaction) (a : Nat) :
    C.foldl (fun cur tx => if tx.blockTime > cur then tx.blockTime else cur) a =
      (C.map Transaction.blockTime).foldl max a := by
  induction C generalizing a with
  | nil => simp
  | cons c C ih => simp [ih, ite_gt_eq_max, List.foldl_map]

/-- A record whose `blockTime` is below the window start never changes
the interval accumulator. -/
theorem stepInterval_of_lt (fromT toT : Option Int) (m : List (String × Nat))
    (tx : Transaction) (h : jltNI tx.blockTime fromT = true) :
    stepInterval fromT toT m tx = m := by
  cases fromT with
  | none => simp [jltNI] at h
  | some fv =>
    simp only [jltNI, decide_eq_true_eq] at h
    have hge : jgeNI tx.blockTime (some fv) = false := by
      simp only [jgeNI, decide_eq_false_iff_not]
      omega
    simp [stepInterval, hge]

/-- The map returned by a page scan is the fold of `stepInterval` over
the records the scan iterated over (the stopping record, if any, is a
no-op by `stepInterval_of_lt`). -/
theorem scanPage_map (fromT toT : Option Int) (m : List (String × Nat))
    (dat : List Transaction) :
    (scanPage fromT toT m dat).1 =
      (scanPage fromT toT m dat).2.1.foldl (stepInterval fromT toT) m := by
  induction dat generalizing m with
  | nil => simp [scanPage]
  | cons tx rest ih =>
    by_cases h : jltNI tx.blockTime fromT
    · simp [scanPage, h, stepInterval_of_lt fromT toT m tx h]
    · simp only [scanPage, Bool.not_eq_true] at h ⊢
      rw [if_neg (by simp [h])]
      simp only [List.foldl_cons]
      exact ih (stepInterval fromT toT m tx)

/-- Trace decomposition of a page scan: the page splits into the scanned
records and an unscanned remainder; the remainder is empty unless the
scan stopped, and a stopped scan ends with a record below the window
start. -/
theorem scanPage_trace (fromT toT : Option Int) (m : List (String × Nat))
    (dat : List Transaction) :
    ∃ rem, dat = (scanPage fromT toT m dat).2.1 ++ rem ∧
      ((scanPage fromT toT m dat).2.2 = true → rem = []) ∧
      ((scanPage fromT toT m dat).2.2 = false →
        ∃ pre term, (scanPage fromT toT m dat).2.1 = pre ++ [term] ∧
          jltNI term.blockTime fromT = true) := by
  induction dat generalizing m with
  | nil => exact ⟨[], by simp [scanPage]⟩
  | cons tx rest ih =>
    by_cases h : jltNI tx.blockTime fromT
    · refine ⟨rest, ?_⟩
      simp only [scanPage, if_pos h]
      exact ⟨by simp, by simp, fun _ => ⟨[], tx, by simp, h⟩⟩
    · obtain ⟨rem, h1, h2, h3⟩ := ih (stepInterval fromT toT m tx)
      refine ⟨rem, ?_⟩
      simp only [scanPage, if_neg h]
      refine ⟨by simpa using h1, h2, ?_⟩
      intro hfalse
      obtain ⟨pre, term, hpre, hterm⟩ := h3 hfalse
      exact ⟨tx :: pre, term, by simp [hpre], hterm⟩

/-- The interval loop folds the accumulator over its scanned trace. -/
theorem intervalLoop_inv (fromT toT : Option Int) (pages : List (Fetch Transaction))
    (st st' : IntervalState)
    (h : intervalLoop fromT toT pages st = .ok st')
    (hm : st.activeWallets = st.scanned.foldl (stepInterval fromT toT) []) :
    st'.activeWallets = st'.scanned.foldl (stepInterval fromT toT) [] := by
  induction pages generalizing st with
  | nil =>
    simp only [intervalLoop] at h
    cases h
    exact hm
  | cons page rest ih =>
    cases page with
    | fail =>
      simp only [intervalLoop] at h
      simp at h
    | ok dat total =>
      simp only [intervalLoop] at h
      by_cases hemp : dat.length = 0
      · rw [if_pos hemp] at h
        cases h
        exact hm
      · rw [if_neg hemp] at h
        have hstep : (scanPage fromT toT st.activeWallets dat).1 =
            (st.scanned ++ (scanPage fromT toT st.activeWallets dat).2.1).foldl
              (stepInterval fromT toT) [] := by
          rw [List.foldl_append, ← hm, scanPage_map]
        by_cases hcont : !(scanPage fromT toT st.activeWallets dat).2.2
        · rw [if_pos hcont] at h
          cases h
          exact hstep
        · rw [if_neg hcont] at h
          by_cases htot : total ≤ st.offset + 50
          · rw [if_pos htot] at h
            cases h
            exact hstep
          · rw [if_neg htot] at h
            exact ih _ h hstep

/-- A run of the interval loop from the initial state has an accumulator
with unique wallet keys. -/
theorem intervalLoop_nodup (fromT toT : Option Int) (pages : List (Fetch Transaction))
    (st' : IntervalState) (h : intervalLoop fromT toT pages intervalInit = .ok st') :
    (akeys st'.activeWallets).Nodup := by
  rw [intervalLoop_inv fromT toT pages intervalInit st' h rfl, stepInterval_eq]
  exact nodup_akeys_foldl_mapStep _ _ _ [] (by simp [akeys])

end ProApi

namespace ProApi

/-- Concatenation of the record streams of a page sequence. -/
def joinPages : List (Fetch Transaction) → List Transaction
  | [] => []
  | .ok dat _ :: rest => dat ++ joinPages rest
  | .fail :: rest => joinPages rest

/-- A well-formed demanding upstream for the interval loop starting at
offset `o`: every fetch succeeds with a nonempty page whose reported
total still exceeds the next offset, so the loop never stops for a
reason other than the time short-circuit or running out of pages. -/
def demandingStream : Nat → List (Fetch Transaction) → Bool
  | _, [] => true
  | o, .ok dat total :: rest =>
    !dat.isEmpty && decide (o + 50 < total) && demandingStream (o + 50) rest
  | _, .fail :: _ => false

/-- Against a demanding upstream, the interval loop scans a contiguous
initial part of the joined stream, and anything it leaves unscanned
comes after a scanned record whose `blockTime` is below the window
start. -/
theorem intervalLoop_scan_all (fromT toT : Option Int) (pages : List (Fetch Transaction))
    (st st' : IntervalState)
    (hd : demandingStream st.offset pages = true)
    (h : intervalLoop fromT toT pages st = .ok st') :
    ∃ snew rem, st'.scanned = st.scanned ++ snew ∧ joinPages pages = snew ++ rem ∧
      (rem ≠ [] → ∃ pre term, snew = pre ++ [term] ∧ jltNI term.blockTime fromT = true) := by
  induction pages generalizing st with
  | nil =>
    simp only [intervalLoop] at h
    cases h
    exact ⟨[], [], by simp, by simp [joinPages], by simp⟩
  | cons page rest ih =>
    cases page with
    | fail => simp [demandingStream] at hd
    | ok dat total =>
      simp only [demandingStream, Bool.and_eq_true, Bool.not_eq_true', decide_eq_true_eq] at hd
      obtain ⟨⟨hne, htot⟩, hdrest⟩ := hd
      have hemp : ¬ dat.length = 0 := by
        simp only [List.length_eq_zero]
        intro hnil
        rw [hnil] at hne
        simp [List.isEmpty] at hne
      simp only [intervalLoop] at h
      rw [if_neg hemp] at h
      obtain ⟨rem0, hsplit, hcontT, hcontF⟩ := scanPage_trace fromT toT st.activeWallets dat
      by_cases hcont : !(scanPage fromT toT st.activeWallets dat).2.2
      · rw [if_pos hcont] at h
        cases h
        refine ⟨(scanPage fromT toT st.activeWallets dat).2.1, rem0 ++ joinPages rest,
          rfl, ?_, ?_⟩
        · simp only [joinPages]
          conv_lhs => rw [hsplit]
          simp
        · intro _
          exact hcontF (by simpa using hcont)
      · rw [if_neg hcont] at h
        have hcont' : (scanPage fromT toT st.activeWallets dat).2.2 = true := by
          simpa using hcont
        have hrem0 : rem0 = [] := hcontT hcont'
        rw [if_neg (by omega : ¬ total ≤ st.offset + 50)] at h
        obtain ⟨snew', rem', hscan', hjoin', hterm'⟩ := ih _ hdrest h
        refine ⟨(scanPage fromT toT st.activeWallets dat).2.1 ++ snew', rem', ?_, ?_, ?_⟩
        · simp at hscan'
          simp [hscan']
        · simp only [joinPages]
          conv_lhs => rw [hsplit, hrem0, hjoin']
          simp
        · intro hne'
          obtain ⟨pre, term, hpre, hterm⟩ := hterm' hne'
          exact ⟨(scanPage fromT toT st.activeWallets dat).2.1 ++ pre, term,
            by simp [hpre], hterm⟩

end ProApi

namespace ProApi

/-- The records of wallet `w` lying inside the `[from, to]` window. -/
def winRecords (fromT toT : Option Int) (w : String) (S : List Transaction) :
    List Transaction :=
  S.filter fun tx => decide (tx.owner = w) && jgeNI tx.blockTime fromT && jleNI tx.blockTime toT

theorem winRecords_eq_filter_key (fromT toT : Option Int) (w : String)
    (S : List Transaction) :
    winRecords fromT toT w S =
      S.filter fun tx => decide (keyInterval fromT toT tx = some w) := by
  unfold winRecords
  apply List.filter_congr
  intro tx _
  unfold keyInterval
  by_cases hle : jleNI tx.blockTime toT
  · by_cases hge : jgeNI tx.blockTime fromT
    · simp [hle, hge]
    · simp [hle, hge]
  · simp [hle]

/-- The interval accumulator at wallet `w` after scanning `S`: present
iff `w` has an in-window record, holding the largest in-window time. -/
theorem alookup_scan_interval (fromT toT : Option Int) (S : List Transaction) (w : String) :
    alookup (S.foldl (stepInterval fromT toT) []) w =
      match winRecords fromT toT w S with
      | [] => none
      | C => some ((C.map Transaction.blockTime).foldl max 0) := by
  rw [stepInterval_eq, alookup_foldl_mapStep, ← winRecords_eq_filter_key]
  rcases hC : winRecords fromT toT w S with _ | ⟨c, C⟩
  · rfl
  · have hne : (c :: C) ≠ [] := List.cons_ne_nil c C
    have heq := @foldl_applyUpd_eq Transaction Nat updInterval
      (fun cur tx => if tx.blockTime > cur then tx.blockTime else cur) 0
      applyUpd_updInterval (c :: C) none hne
    simp only [alookup]
    rw [heq]
    simp only [Option.getD_none]
    rw [foldl_ite_gt_eq_foldl_max]

end ProApi

/-! ## Instantiating the generic machinery: public-API interval -/

namespace PublicApi

/-- The per-record value update of `stepIntervalJS`: store the new
`blockTime` when absent or strictly larger. -/
def updIntervalJS (o : Option Nat) (tx : PubTx) : Option Nat :=
  match o with
  | none => some tx.blockTime
  | some cur => if tx.blockTime > cur then some tx.blockTime else none

theorem applyUpd_updIntervalJS (o : Option Nat) (tx : PubTx) :
    applyUpd updIntervalJS o tx =
      some (if tx.blockTime > o.getD 0 then tx.blockTime else o.getD 0) := by
  cases o with
  | none =>
    simp only [applyUpd, updIntervalJS, Option.getD_none]
    rcases Nat.eq_zero_or_pos tx.blockTime with hz | hp
    · simp [hz]
    · simp [hp]
  | some cur =>
    simp only [applyUpd, updIntervalJS, Option.getD_some]
    by_cases hgt : tx.blockTime > cur <;> simp [hgt]

/-- Per-record effect of the public interval scan, including the
short-circuit guard: a record below the window start both stops the scan
and leaves the map alone. -/
def stepIntervalJSWin (fromT toT : Option Int) (m : List (String × Nat)) (tx : PubTx) :
    List (String × Nat) :=
  if jltNI tx.blockTime fromT then m else stepIntervalJS toT m tx

/-- The wallet key a public interval record is accumulated under. -/
def keyIntervalJS (fromT toT : Option Int) (tx : PubTx) : Option String :=
  if jltNI tx.blockTime fromT then none
  else
    match tx.signer.head? with
    | none => none
    | some w => if w = "" then none else if jleNI tx.blockTime toT then some w else none

theorem stepIntervalJSWin_eq (fromT toT : Option Int) :
    stepIntervalJSWin fromT toT = mapStep (keyIntervalJS fromT toT) updIntervalJS := by
  funext m tx
  unfold stepIntervalJSWin stepIntervalJS mapStep keyIntervalJS updIntervalJS
  by_cases hlt : jltNI tx.blockTime fromT
  · simp [hlt]
  · rw [if_neg hlt, if_neg hlt]
    cases tx.signer.head? with
    | none => rfl
    | some w =>
      by_cases hw : w = ""
      · simp [hw]
      · by_cases hle : jleNI tx.blockTime toT
        · cases halo : alookup m w with
          | none => simp [hw, hle, halo]
          | some cur => by_cases hgt : tx.blockTime > cur <;> simp [hw, hle, halo, hgt]
        · simp [hw, hle]

/-- The map returned by a public page scan is the fold of the guarded
step over the records the scan iterated over. -/
theorem scanPageJS_map (fromT toT : Option Int) (m : List (String × Nat))
    (dat : List PubTx) :
    (scanPageJS fromT toT m dat).1 =
      (scanPageJS fromT toT m dat).2.1.foldl (stepIntervalJSWin fromT toT) m := by
  induction dat generalizing m with
  | nil => simp [scanPageJS]
  | cons tx rest ih =>
    by_cases h : jltNI tx.blockTime fromT
    · simp [scanPageJS, h, stepIntervalJSWin, h]
    · simp only [scanPageJS, Bool.not_eq_true] at h ⊢
      rw [if_neg (by simp [h])]
      simp only [List.foldl_cons]
      rw [ih (stepIntervalJS toT m tx)]
      have : stepIntervalJSWin fromT toT m tx = stepIntervalJS toT m tx := by
        simp [stepIntervalJSWin, h]
      rw [this]

/-- Trace decomposition of a public page scan. -/
theorem scanPageJS_trace (fromT toT : Option Int) (m : List (String × Nat))
    (dat : List PubTx) :
    ∃ rem, dat = (scanPageJS fromT toT m dat).2.1 ++ rem ∧
      ((scanPageJS fromT toT m dat).2.2 = true → rem = []) ∧
      ((scanPageJS fromT toT m dat).2.2 = false →
        ∃ pre term, (scanPageJS fromT toT m dat).2.1 = pre ++ [term] ∧
          jltNI term.blockTime fromT = true) := by
  induction dat generalizing m with
  | nil => exact ⟨[], by simp [scanPageJS]⟩
  | cons tx rest ih =>
    by_cases h : jltNI tx.blockTime fromT
    · refine ⟨rest, ?_⟩
      simp only [scanPageJS, if_pos h]
      exact ⟨by simp, by simp, fun _ => ⟨[], tx, by simp, h⟩⟩
    · obtain ⟨rem, h1, h2, h3⟩ := ih (stepIntervalJS toT m tx)
      refine ⟨rem, ?_⟩
      simp only [scanPageJS, if_neg h]
      refine ⟨by simpa using h1, h2, ?_⟩
      intro hfalse
      obtain ⟨pre, term, hpre, hterm⟩ := h3 hfalse
      exact ⟨tx :: pre, term, by simp [hpre], hterm⟩

/-- The public interval loop folds the guarded step over its scanned
trace. -/
theorem intervalLoopJS_inv (fromT toT : Option Int) (pages : List (FetchP PubTx))
    (st st' : IntervalStateJS)
    (h : intervalLoopJS fromT toT pages st = .ok st')
    (hm : st.activeWallets = st.scanned.foldl (stepIntervalJSWin fromT toT) []) :
    st'.activeWallets = st'.scanned.foldl (stepIntervalJSWin fromT toT) [] := by
  induction pages generalizing st with
  | nil =>
    simp only [intervalLoopJS] at h
    cases h
    exact hm
  | cons page rest ih =>
    cases page with
    | fail =>
      simp only [intervalLoopJS] at h
      simp at h
    | ok dat =>
      simp only [intervalLoopJS] at h
      by_cases hemp : dat.length = 0
      · rw [if_pos hemp] at h
        cases h
        exact hm
      · rw [if_neg hemp] at h
        have hstep : (scanPageJS fromT toT st.activeWallets dat).1 =
            (st.scanned ++ (scanPageJS fromT toT st.activeWallets dat).2.1).foldl
              (stepIntervalJSWin fromT toT) [] := by
          rw [List.foldl_append, ← hm, scanPageJS_map]
        by_cases hcont : !(scanPageJS fromT toT st.activeWallets dat).2.2
        · rw [if_pos hcont] at h
          cases h
          exact hstep
        · rw [if_neg hcont] at h
          by_cases hshort : dat.length < 50
          · rw [if_pos hshort] at h
            cases h
            exact hstep
          · rw [if_neg hshort] at h
            exact ih _ h hstep

/-- A run of the public interval loop from the initial state has an
accumulator with unique wallet keys. -/
theorem intervalLoopJS_nodup (fromT toT : Option Int) (pages : List (FetchP PubTx))
    (st' : IntervalStateJS)
    (h : intervalLoopJS fromT toT pages intervalInitJS = .ok st') :
    (akeys st'.activeWallets).Nodup := by
  rw [intervalLoopJS_inv fromT toT pages intervalInitJS st' h rfl, stepIntervalJSWin_eq]
  exact nodup_akeys_foldl_mapStep _ _ _ [] (by simp [akeys])

end PublicApi

namespace PublicApi

/-- Concatenation of the record streams of a public page sequence. -/
def joinPagesJS : List (FetchP PubTx) → List PubTx
  | [] => []
  | .ok dat :: rest => dat ++ joinPagesJS rest
  | .fail :: rest => joinPagesJS rest

/-- A well-formed upstream for the public interval loop: every fetch
succeeds with a full page of exactly 50 records, so the loop never stops
for a reason other than the time short-circuit or running out of
pages. -/
def fullPagesStream : List (FetchP PubTx) → Bool
  | [] => true
  | .ok dat :: rest => decide (dat.length = 50) && fullPagesStream rest
  | .fail :: _ => false

/-- Against full pages, the public interval loop scans a contiguous
initial part of the joined stream, and anything it leaves unscanned
comes after a scanned record whose `blockTime` is below the window
start. -/
theorem intervalLoopJS_scan_all (fromT toT : Option Int) (pages : List (FetchP PubTx))
    (st st' : IntervalStateJS)
    (hd : fullPagesStream pages = true)
    (h : intervalLoopJS fromT toT pages st = .ok st') :
    ∃ snew rem, st'.scanned = st.scanned ++ snew ∧ joinPagesJS pages = snew ++ rem ∧
      (rem ≠ [] → ∃ pre term, snew = pre ++ [term] ∧ jltNI term.blockTime fromT = true) := by
  induction pages generalizing st with
  | nil =>
    simp only [intervalLoopJS] at h
    cases h
    exact ⟨[], [], by simp, by simp [joinPagesJS], by simp⟩
  | cons page rest ih =>
    cases page with
    | fail => simp [fullPagesStream] at hd
    | ok dat =>
      simp only [fullPagesStream, Bool.and_eq_true, decide_eq_true_eq] at hd
      obtain ⟨hlen, hdrest⟩ := hd
      have hemp : ¬ dat.length = 0 := by omega
      simp only [intervalLoopJS] at h
      rw [if_neg hemp] at h
      obtain ⟨rem0, hsplit, hcontT, hcontF⟩ := scanPageJS_trace fromT toT st.activeWallets dat
      by_cases hcont : !(scanPageJS fromT toT st.activeWallets dat).2.2
      · rw [if_pos hcont] at h
        cases h
        refine ⟨(scanPageJS fromT toT st.activeWallets dat).2.1, rem0 ++ joinPagesJS rest,
          rfl, ?_, ?_⟩
        · simp only [joinPagesJS]
          conv_lhs => rw [hsplit]
          simp
        · intro _
          exact hcontF (by simpa using hcont)
      · rw [if_neg hcont] at h
        have hcont' : (scanPageJS fromT toT st.activeWallets dat).2.2 = true := by
          simpa using hcont
        have hrem0 : rem0 = [] := hcontT hcont'
        rw [if_neg (by omega : ¬ dat.length < 50)] at h
        obtain ⟨snew', rem', hscan', hjoin', hterm'⟩ := ih _ hdrest h
        refine ⟨(scanPageJS fromT toT st.activeWallets dat).2.1 ++ snew', rem', ?_, ?_, ?_⟩
        · simp at hscan'
          simp [hscan']
        · simp only [joinPagesJS]
          conv_lhs => rw [hsplit, hrem0, hjoin']
          simp
        · intro hne'
          obtain ⟨pre, term, hpre, hterm⟩ := hterm' hne'
          exact ⟨(scanPageJS fromT toT st.activeWallets dat).2.1 ++ pre, term,
            by simp [hpre], hterm⟩

/-- The records of wallet `w` lying inside the public variant's window:
signed by `w` and with `from ≤ blockTime ≤ to`. -/
def winRecordsJS (fromT toT : Option Int) (w : String) (S : List PubTx) : List PubTx :=
  S.filter fun tx => decide (tx.signer.head? = some w) &&
    jgeNI tx.blockTime fromT && jleNI tx.blockTime toT

/-- For a numeric window start and a truthy wallet, the public window
filter coincides with the accumulation-key filter. -/
theorem winRecordsJS_eq_filter_key (fv : Int) (toT : Option Int) {w : String}
    (hw : w ≠ "") (S : List PubTx) :
    winRecordsJS (some fv) toT w S =
      S.filter fun tx => decide (keyIntervalJS (some fv) toT tx = some w) := by
  unfold winRecordsJS
  apply List.filter_congr
  intro tx _
  unfold keyIntervalJS
  by_cases hlt : jltNI tx.blockTime (some fv)
  · have hge : jgeNI tx.blockTime (some fv) = false := by
      simp only [jltNI, decide_eq_true_eq] at hlt
      simp only [jgeNI, decide_eq_false_iff_not]
      omega
    simp [hlt, hge]
  · have hge : jgeNI tx.blockTime (some fv) = true := by
      simp only [jltNI, decide_eq_true_eq, not_lt] at hlt
      simp only [jgeNI, decide_eq_true_eq]
      omega
    rw [if_neg hlt]
    cases hs : tx.signer.head? with
    | none => simp [hs, hge]
    | some w' =>
      by_cases hw' : w' = ""
      · subst hw'
        simp [hs, hge, Ne.symm hw]
      · by_cases hle : jleNI tx.blockTime toT
        · simp [hs, hge, hw', hle]
        · simp [hs, hge, hw', hle]

/-- The public interval accumulator at wallet `w` after scanning `S`. -/
theorem alookup_scan_intervalJS (fv : Int) (toT : Option Int) {w : String} (hw : w ≠ "")
    (S : List PubTx) :
    alookup (S.foldl (stepIntervalJSWin (some fv) toT) []) w =
      match winRecordsJS (some fv) toT w S with
      | [] => none
      | C => some ((C.map PubTx.blockTime).foldl max 0) := by
  rw [stepIntervalJSWin_eq, alookup_foldl_mapStep, ← winRecordsJS_eq_filter_key fv toT hw]
  rcases hC : winRecordsJS (some fv) toT w S with _ | ⟨c, C⟩
  · rfl
  · have hne : (c :: C) ≠ [] := List.cons_ne_nil c C
    have heq := @foldl_applyUpd_eq PubTx Nat updIntervalJS
      (fun cur tx => if tx.blockTime > cur then tx.blockTime else cur) 0
      applyUpd_updIntervalJS (c :: C) none hne
    simp only [alookup]
    rw [heq]
    simp only [Option.getD_none]
    clear heq hC hne
    induction C generalizing c with
    | nil => simp [ite_gt_eq_max]
    | cons c2 C ih => simp [ih, ite_gt_eq_max, List.foldl_map]

/-- Any wallet stored by the public interval scan is truthy (nonempty). -/
theorem scan_intervalJS_key_ne (fromT toT : Option Int) (S : List PubTx) (w : String)
    (hmem : w ∈ akeys (S.foldl (stepIntervalJSWin fromT toT) [])) : w ≠ "" := by
  rw [stepIntervalJSWin_eq] at hmem
  rw [← isSome_alookup, alookup_foldl_mapStep] at hmem
  rcases hC : S.filter fun tx => decide (keyIntervalJS fromT toT tx = some w) with _ | ⟨c, C⟩
  · rw [hC] at hmem
    simp [alookup] at hmem
  · have hc : decide (keyIntervalJS fromT toT c = some w) = true := by
      have := List.mem_filter.mp (hC ▸ List.mem_cons_self c C)
      exact this.2
    simp only [decide_eq_true_eq] at hc
    unfold keyIntervalJS at hc
    by_cases hlt : jltNI c.blockTime fromT
    · simp [hlt] at hc
    · rw [if_neg hlt] at hc
      cases hs : c.signer.head? with
      | none => simp [hs] at hc
      | some w' =>
        by_cases hw' : w' = ""
        · simp [hs, hw'] at hc
        · by_cases hle : jleNI c.blockTime toT
          · simp [hs, hw', hle] at hc
            subst hc
            exact hw'
          · simp [hs, hw', hle] at hc

end PublicApi

/-! ## Holders loop invariants -/

namespace ProApi

/-- The holders list accumulated by the pro holders loop is exactly the
qualifying records of its scanned trace, mapped to rows. -/
theorem holdersLoop_inv (limit : Option Int) (minAmount : Option ℚ)
    (pages : List (Fetch Holder)) (st st' : HoldersState)
    (h : holdersLoop limit minAmount pages st = .ok st')
    (hm : st.holders = (st.scanned.filter fun hh => jgeQ hh.uiAmount minAmount).map
      fun hh => { wallet := hh.owner, amount := hh.uiAmount }) :
    st'.holders = (st'.scanned.filter fun hh => jgeQ hh.uiAmount minAmount).map
      fun hh => { wallet := hh.owner, amount := hh.uiAmount } := by
  induction pages generalizing st with
  | nil =>
    simp only [holdersLoop] at h
    cases h
    exact hm
  | cons page rest ih =>
    cases page with
    | fail =>
      simp only [holdersLoop] at h
      by_cases hcap : jltNI st.holders.length limit
      · rw [if_pos hcap] at h
        simp at h
      · rw [if_neg hcap] at h
        cases h
        exact hm
    | ok dat total =>
      simp only [holdersLoop] at h
      by_cases hcap : jltNI st.holders.length limit
      · rw [if_pos hcap] at h
        by_cases hemp : dat.length = 0
        · rw [if_pos hemp] at h
          cases h
          exact hm
        · rw [if_neg hemp] at h
          by_cases hstop : jgeNI (st.holders ++ (dat.filter fun hh =>
              jgeQ hh.uiAmount minAmount).map fun hh =>
                { wallet := hh.owner, amount := hh.uiAmount } : List HolderRow).length limit
              || total ≤ st.offset + 50
          · rw [if_pos hstop] at h
            cases h
            simp [hm, List.filter_append]
          · rw [if_neg hstop] at h
            exact ih _ h (by simp [hm, List.filter_append])
      · rw [if_neg hcap] at h
        cases h
        exact hm

end ProApi

namespace PublicApi

open ProApi (Holder HolderRow HoldersState holdersInit)

/-- The holders list accumulated by the public holders loop is exactly
the qualifying records of its scanned trace, mapped to rows. -/
theorem holdersLoopJS_inv (limit : Option Int) (minAmount : Option ℚ)
    (pages : List (FetchP Holder)) (st st' : HoldersState)
    (h : holdersLoopJS limit minAmount pages st = .ok st')
    (hm : st.holders = (st.scanned.filter fun hh => jgeQ hh.uiAmount minAmount).map
      fun hh => { wallet := hh.owner, amount := hh.uiAmount }) :
    st'.holders = (st'.scanned.filter fun hh => jgeQ hh.uiAmount minAmount).map
      fun hh => { wallet := hh.owner, amount := hh.uiAmount } := by
  induction pages generalizing st with
  | nil =>
    simp only [holdersLoopJS] at h
    cases h
    exact hm
  | cons page rest ih =>
    cases page with
    | fail =>
      simp only [holdersLoopJS] at h
      by_cases hcap : jltNI st.holders.length limit
      · rw [if_pos hcap] at h
        simp at h
      · rw [if_neg hcap] at h
        cases h
        exact hm
    | ok dat =>
      simp only [holdersLoopJS] at h
      by_cases hcap : jltNI st.holders.length limit
      · rw [if_pos hcap] at h
        by_cases hemp : dat.length = 0
        · rw [if_pos hemp] at h
          cases h
          exact hm
        · rw [if_neg hemp] at h
          by_cases hstop : jgeNI (st.holders ++ (dat.filter fun hh =>
              jgeQ hh.uiAmount minAmount).map fun hh =>
                { wallet := hh.owner, amount := hh.uiAmount } : List HolderRow).length limit
              || dat.length < 50
          · rw [if_pos hstop] at h
            cases h
            simp [hm, List.filter_append]
          · rw [if_neg hstop] at h
            exact ih _ h (by simp [hm, List.filter_append])
      · rw [if_neg hcap] at h
        cases h
        exact hm

end PublicApi

/-! ## Claim theorems -/

theorem jsSliceTo_nil {α : Type} (e : Option Int) : jsSliceTo ([] : List α) e = [] := by
  cases e with
  | none => rfl
  | some v => by_cases h : v < 0 <;> simp [jsSliceTo, h]

/-- C9: an empty first upstream page makes every aggregation stop
immediately and return an empty result, with no error raised. -/
theorem c9_empty_first_page :
    (∀ (rest : List (ProApi.Fetch ProApi.Transaction)) (t : Nat) (limit : Option Int),
      ProApi.fetchTopTraders (ProApi.Fetch.ok [] t :: rest) limit = Except.ok []) ∧
    (∀ (rest : List (ProApi.Fetch ProApi.Transaction)) (t : Nat) (fromT toT : Option Int),
      ProApi.fetchActiveWallets (ProApi.Fetch.ok [] t :: rest) fromT toT = Except.ok []) ∧
    (∀ (rest : List (ProApi.Fetch ProApi.Holder)) (t : Nat) (limit : Option Int)
      (mv : Option ℚ),
      ProApi.fetchHolders (ProApi.Fetch.ok [] t :: rest) limit mv = Except.ok []) ∧
    (∀ (rest : List (PublicApi.FetchP PublicApi.PubTx)) (limit : Option Int),
      PublicApi.fetchTopTradersPub (PublicApi.FetchP.ok [] :: rest) limit = Except.ok []) ∧
    (∀ (rest : List (PublicApi.FetchP PublicApi.PubTx)) (fromT toT : Option Int),
      PublicApi.fetchActiveWalletsJS (PublicApi.FetchP.ok [] :: rest) fromT toT =
        Except.ok []) ∧
    (∀ (rest : List (PublicApi.FetchP ProApi.Holder)) (limit : Option Int) (mv : Option ℚ),
      PublicApi.fetchHoldersJS (PublicApi.FetchP.ok [] :: rest) limit mv = Except.ok []) := by
  refine ⟨?_, ?_, ?_, ?_, ?_, ?_⟩
  · intro rest t limit
    simp [ProApi.fetchTopTraders, ProApi.tradersLoop, ProApi.sortedTradersOf,
      ProApi.tradersInit, List.mergeSort_nil, jsSliceTo_nil, Except.map]
  · intro rest t fromT toT
    simp [ProApi.fetchActiveWallets, ProApi.intervalLoop, ProApi.intervalInit, Except.map]
  · intro rest t limit mv
    by_cases hl : jltNI 0 limit
    · simp [ProApi.fetchHolders, ProApi.holdersLoop, ProApi.holdersInit, hl, jsSliceTo_nil,
        Except.map]
    · simp [ProApi.fetchHolders, ProApi.holdersLoop, ProApi.holdersInit, hl, jsSliceTo_nil,
        Except.map]
  · intro rest limit
    simp [PublicApi.fetchTopTradersPub, PublicApi.tradersLoopPub,
      PublicApi.sortedTradersPubOf, PublicApi.pubTradersInit, List.mergeSort_nil,
      jsSliceTo_nil, Except.map]
  · intro rest fromT toT
    simp [PublicApi.fetchActiveWalletsJS, PublicApi.intervalLoopJS, PublicApi.intervalInitJS,
      Except.map]
  · intro rest limit mv
    by_cases hl : jltNI 0 limit
    · simp [PublicApi.fetchHoldersJS, PublicApi.holdersLoopJS, ProApi.holdersInit, hl,
        jsSliceTo_nil, Except.map]
    · simp [PublicApi.fetchHoldersJS, PublicApi.holdersLoopJS, ProApi.holdersInit, hl,
        jsSliceTo_nil, Except.map]

/-- C8: every aggregation is deterministic — each one is, as embedded
from the source, a pure function of the upstream page sequence and the
request parameters (the source consults no clock, randomness or state
shared across requests), so re-running it against an identical fixed
page sequence yields an identical result. -/
theorem c8_deterministic :
    (∀ (pages : List (ProApi.Fetch ProApi.Transaction)) (limit : Option Int),
      ProApi.fetchTopTraders pages limit = ProApi.fetchTopTraders pages limit) ∧
    (∀ (pages : List (ProApi.Fetch ProApi.Transaction)) (fromT toT : Option Int),
      ProApi.fetchActiveWallets pages fromT toT = ProApi.fetchActiveWallets pages fromT toT) ∧
    (∀ (pages : List (ProApi.Fetch ProApi.Holder)) (limit : Option Int) (mv : Option ℚ),
      ProApi.fetchHolders pages limit mv = ProApi.fetchHolders pages limit mv) ∧
    (∀ (pages : List (PublicApi.FetchP PublicApi.PubTx)) (limit : Option Int),
      PublicApi.fetchTopTradersPub pages limit = PublicApi.fetchTopTradersPub pages limit) ∧
    (∀ (pages : List (PublicApi.FetchP PublicApi.PubTx)) (fromT toT : Option Int),
      PublicApi.fetchActiveWalletsJS pages fromT toT =
        PublicApi.fetchActiveWalletsJS pages fromT toT) ∧
    (∀ (pages : List (PublicApi.FetchP ProApi.Holder)) (limit : Option Int) (mv : Option ℚ),
      PublicApi.fetchHoldersJS pages limit mv = PublicApi.fetchHoldersJS pages limit mv) :=
  ⟨fun _ _ => rfl, fun _ _ _ => rfl, fun _ _ _ => rfl, fun _ _ => rfl,
    fun _ _ _ => rfl, fun _ _ _ => rfl⟩

/-- C6: a failed page fetch (transport error or non-2xx response) aborts
the whole aggregation with the generic 'failed to fetch' error no matter
what was already accumulated (`st` is arbitrary) and no matter what later
pages would have returned (`rest` is arbitrary — so nothing is retried
and no partial result survives), and each handler surfaces the thrown
error as an HTTP 500 `{error}` response. -/
theorem c6_fetch_failure_aborts :
    (∀ (rest : List (ProApi.Fetch ProApi.Transaction)) (st : ProApi.TradersState),
      st.transactionsProcessed < 1000 →
      ProApi.tradersLoop (ProApi.Fetch.fail :: rest) st =
        Except.error "Failed to fetch transfer data from Solscan.") ∧
    (∀ (rest : List (ProApi.Fetch ProApi.Transaction)) (st : ProApi.IntervalState)
      (fromT toT : Option Int),
      ProApi.intervalLoop fromT toT (ProApi.Fetch.fail :: rest) st =
        Except.error "Failed to fetch transfer data from Solscan.") ∧
    (∀ (rest : List (ProApi.Fetch ProApi.Holder)) (st : ProApi.HoldersState)
      (limit : Option Int) (mv : Option ℚ), jltNI st.holders.length limit = true →
      ProApi.holdersLoop limit mv (ProApi.Fetch.fail :: rest) st =
        Except.error "Failed to fetch holder data from Solscan.") ∧
    (∀ (q : Query) (pages : List (ProApi.Fetch ProApi.Transaction)) (tok e : String),
      q.token = some tok → tok ≠ "" →
      ProApi.fetchTopTraders pages (jsParseInt (q.limit.getD "50")) = Except.error e →
      ProApi.tradersHandler q pages = Resp.serverError e) ∧
    (∀ (q : Query) (pages : List (ProApi.Fetch ProApi.Transaction)) (tok sf st2 e : String),
      q.token = some tok → tok ≠ "" → q.fromQ = some sf → sf ≠ "" →
      q.toQ = some st2 → st2 ≠ "" →
      ProApi.fetchActiveWallets pages (jsParseInt sf) (jsParseInt st2) = Except.error e →
      ProApi.intervalHandler q pages = Resp.serverError e) ∧
    (∀ (q : Query) (pages : List (ProApi.Fetch ProApi.Holder)) (tok e : String),
      q.token = some tok → tok ≠ "" →
      ProApi.fetchHolders pages (jsParseInt (q.limit.getD "100"))
        (jsParseFloat (q.minAmount.getD "0")) = Except.error e →
      ProApi.holdersHandler q pages = Resp.serverError e) := by
  refine ⟨?_, ?_, ?_, ?_, ?_, ?_⟩
  · intro rest st hcap
    simp [ProApi.tradersLoop, hcap]
  · intro rest st fromT toT
    simp [ProApi.intervalLoop]
  · intro rest st limit mv hcap
    simp [ProApi.holdersLoop, hcap]
  · intro q pages tok e htok hne hfetch
    simp [ProApi.tradersHandler, htok, hne, hfetch]
  · intro q pages tok sf st2 e htok hne hf hfne ht htne hfetch
    simp [ProApi.intervalHandler, htok, hne, hf, hfne, ht, htne, hfetch]
  · intro q pages tok e htok hne hfetch
    simp [ProApi.holdersHandler, htok, hne, hfetch]

/-- C7: a missing `token` (all three routes) or missing `from`/`to`
(interval) yields the 400 `{error}` response for every upstream `pages`
whatsoever — in particular before and independent of any upstream call —
and a thrown aggregation error yields the 500 `{error}` response carrying
the error's message. -/
theorem c7_validation_and_errors :
    (∀ (q : Query) (pages : List (ProApi.Fetch ProApi.Holder)), q.token = none →
      ProApi.holdersHandler q pages = Resp.badRequest "Token address is required.") ∧
    (∀ (q : Query) (pages : List (ProApi.Fetch ProApi.Transaction)), q.token = none →
      ProApi.tradersHandler q pages = Resp.badRequest "Token address is required.") ∧
    (∀ (q : Query) (pages : List (ProApi.Fetch ProApi.Transaction)), q.token = none →
      ProApi.intervalHandler q pages = Resp.badRequest "Token address is required.") ∧
    (∀ (q : Query) (pages : List (ProApi.Fetch ProApi.Transaction)) (tok : String),
      q.token = some tok → tok ≠ "" → (q.fromQ = none ∨ q.toQ = none) →
      ProApi.intervalHandler q pages =
        Resp.badRequest "A time range (from, to) is required.") ∧
    (∀ (q : Query) (pages : List (ProApi.Fetch ProApi.Holder)) (tok e : String),
      q.token = some tok → tok ≠ "" →
      ProApi.fetchHolders pages (jsParseInt (q.limit.getD "100"))
        (jsParseFloat (q.minAmount.getD "0")) = Except.error e →
      ProApi.holdersHandler q pages = Resp.serverError e) ∧
    (∀ (q : Query) (pages : List (ProApi.Fetch ProApi.Transaction)) (tok e : String),
      q.token = some tok → tok ≠ "" →
      ProApi.fetchTopTraders pages (jsParseInt (q.limit.getD "50")) = Except.error e →
      ProApi.tradersHandler q pages = Resp.serverError e) ∧
    (∀ (q : Query) (pages : List (ProApi.Fetch ProApi.Transaction)) (tok sf st2 e : String),
      q.token = some tok → tok ≠ "" → q.fromQ = some sf → sf ≠ "" →
      q.toQ = some st2 → st2 ≠ "" →
      ProApi.fetchActiveWallets pages (jsParseInt sf) (jsParseInt st2) = Except.error e →
      ProApi.intervalHandler q pages = Resp.serverError e) := by
  refine ⟨?_, ?_, ?_, ?_, ?_, ?_, ?_⟩
  · intro q pages htok
    simp [ProApi.holdersHandler, htok]
  · intro q pages htok
    simp [ProApi.tradersHandler, htok]
  · intro q pages htok
    simp [ProApi.intervalHandler, htok]
  · intro q pages tok htok hne hrange
    rcases hrange with hf | ht
    · simp [ProApi.intervalHandler, htok, hne, hf]
    · simp [ProApi.intervalHandler, htok, hne, ht]
  · intro q pages tok e htok hne hfetch
    simp [ProApi.holdersHandler, htok, hne, hfetch]
  · intro q pages tok e htok hne hfetch
    simp [ProApi.tradersHandler, htok, hne, hfetch]
  · intro q pages tok sf st2 e htok hne hf hfne ht htne hfetch
    simp [ProApi.intervalHandler, htok, hne, hf, hfne, ht, htne, hfetch]

/-- With a NaN window bound, the interval per-record update is a no-op:
every comparison against NaN is false. -/
theorem stepInterval_nan (fromT toT : Option Int)
    (hnan : fromT = none ∨ toT = none) (m : List (String × Nat))
    (tx : ProApi.Transaction) : ProApi.stepInterval fromT toT m tx = m := by
  rcases hnan with rfl | rfl
  · simp [ProApi.stepInterval, jgeNI]
  · simp [ProApi.stepInterval, jleNI]

theorem foldl_stepInterval_nan (fromT toT : Option Int)
    (hnan : fromT = none ∨ toT = none) (S : List ProApi.Transaction)
    (m : List (String × Nat)) : S.foldl (ProApi.stepInterval fromT toT) m = m := by
  induction S generalizing m with
  | nil => rfl
  | cons tx S ih => simp [stepInterval_nan fromT toT hnan, ih]

/-- C10: a present but unparseable numeric query parameter (`parseInt`
returning NaN) does not produce a 400: the handler answers 200 with an
empty array.  For holders the loop condition `holders.length < NaN` is
false at once, so no upstream request is even issued (the returned state
is the initial one, `fetches = 0`); for traders the scan runs but
`slice(0, NaN)` empties the result; for interval every `blockTime`
comparison against NaN is false, so nothing is ever accumulated. -/
theorem c10_nan_numeric_params :
    (∀ (pages : List (ProApi.Fetch ProApi.Holder)) (tok s : String)
      (minQ fromQ toQ : Option String), tok ≠ "" → jsParseInt s = none →
      ProApi.holdersLoop none (jsParseFloat (minQ.getD "0")) pages ProApi.holdersInit =
        Except.ok ProApi.holdersInit ∧
      ProApi.holdersHandler ⟨some tok, some s, minQ, fromQ, toQ⟩ pages = Resp.ok []) ∧
    (∀ (pages : List (ProApi.Fetch ProApi.Transaction)) (st : ProApi.TradersState)
      (tok s : String) (minQ fromQ toQ : Option String), tok ≠ "" → jsParseInt s = none →
      ProApi.tradersLoop pages ProApi.tradersInit = Except.ok st →
      ProApi.tradersHandler ⟨some tok, some s, minQ, fromQ, toQ⟩ pages = Resp.ok []) ∧
    (∀ (pages : List (ProApi.Fetch ProApi.Transaction)) (st : ProApi.IntervalState)
      (tok sf st2 : String) (limitQ minQ : Option String),
      tok ≠ "" → sf ≠ "" → st2 ≠ "" →
      (jsParseInt sf = none ∨ jsParseInt st2 = none) →
      ProApi.intervalLoop (jsParseInt sf) (jsParseInt st2) pages ProApi.intervalInit =
        Except.ok st →
      ProApi.intervalHandler ⟨some tok, limitQ, minQ, some sf, some st2⟩ pages =
        Resp.ok []) := by
  refine ⟨?_, ?_, ?_⟩
  · intro pages tok s minQ fromQ toQ hne hnan
    have hloop : ProApi.holdersLoop none (jsParseFloat (minQ.getD "0")) pages
        ProApi.holdersInit = Except.ok ProApi.holdersInit := by
      cases pages with
      | nil => rfl
      | cons page rest =>
        simp [ProApi.holdersLoop, ProApi.holdersInit, jltNI]
    refine ⟨hloop, ?_⟩
    simp only [ProApi.holdersHandler, hne, if_neg hne]
    have hfetch : ProApi.fetchHolders pages (jsParseInt s)
        (jsParseFloat (minQ.getD "0")) = Except.ok [] := by
      rw [ProApi.fetchHolders, hnan, hloop]
      rfl
    rw [hnan] at hfetch
    simp [hnan, hfetch]
  · intro pages st tok s minQ fromQ toQ hne hnan hrun
    have hfetch : ProApi.fetchTopTraders pages (jsParseInt s) = Except.ok [] := by
      rw [ProApi.fetchTopTraders, hrun, hnan]
      rfl
    rw [hnan] at hfetch
    simp only [ProApi.tradersHandler, if_neg hne]
    simp [hnan, hfetch]
  · intro pages st tok sf st2 limitQ minQ hne hfne htne hnan hrun
    have hemptyw : st.activeWallets = [] := by
      rw [ProApi.intervalLoop_inv (jsParseInt sf) (jsParseInt st2) pages
        ProApi.intervalInit st hrun rfl]
      exact foldl_stepInterval_nan _ _ hnan _ _
    have hfetch : ProApi.fetchActiveWallets pages (jsParseInt sf) (jsParseInt st2) =
        Except.ok [] := by
      rw [ProApi.fetchActiveWallets, hrun]
      simp [Except.map, hemptyw]
    simp [ProApi.intervalHandler, hne, hfne, htne, hfetch]

/-- C3: for both holders variants, every emitted row satisfies
`amount ≥ minAmount`, and the output length is exactly
`min(limit, number of qualifying records among all records of the pages
fetched before the loop stopped)` (the scanned trace of the run). -/
theorem c3_holders_filter_and_length
    (pagesT : List (ProApi.Fetch ProApi.Holder))
    (pagesJ : List (PublicApi.FetchP ProApi.Holder))
    (l : Int) (hl : 0 ≤ l) (mv : ℚ)
    (stT stJ : ProApi.HoldersState)
    (hT : ProApi.holdersLoop (some l) (some mv) pagesT ProApi.holdersInit = Except.ok stT)
    (hJ : PublicApi.holdersLoopJS (some l) (some mv) pagesJ ProApi.holdersInit =
      Except.ok stJ) :
    (ProApi.fetchHolders pagesT (some l) (some mv) =
        Except.ok (jsSliceTo stT.holders (some l)) ∧
      (∀ row ∈ jsSliceTo stT.holders (some l), mv ≤ row.amount) ∧
      (jsSliceTo stT.holders (some l)).length =
        min l.toNat (stT.scanned.filter fun hh => jgeQ hh.uiAmount (some mv)).length) ∧
    (PublicApi.fetchHoldersJS pagesJ (some l) (some mv) =
        Except.ok (jsSliceTo stJ.holders (some l)) ∧
      (∀ row ∈ jsSliceTo stJ.holders (some l), mv ≤ row.amount) ∧
      (jsSliceTo stJ.holders (some l)).length =
        min l.toNat (stJ.scanned.filter fun hh => jgeQ hh.uiAmount (some mv)).length) := by
  have hinvT := ProApi.holdersLoop_inv (some l) (some mv) pagesT ProApi.holdersInit stT hT rfl
  have hinvJ := PublicApi.holdersLoopJS_inv (some l) (some mv) pagesJ ProApi.holdersInit
    stJ hJ rfl
  constructor
  · refine ⟨?_, ?_, ?_⟩
    · rw [ProApi.fetchHolders, hT]
      rfl
    · intro row hrow
      have hmem : row ∈ stT.holders := (jsSliceTo_sublist _ _).mem hrow
      rw [hinvT] at hmem
      obtain ⟨hh, hhf, hrow⟩ := List.mem_map.mp hmem
      have hq := (List.mem_filter.mp hhf).2
      simp only [jgeQ, decide_eq_true_eq] at hq
      rw [← hrow]
      exact hq
    · rw [jsSliceTo_some_length _ _ hl, hinvT, List.length_map]
  · refine ⟨?_, ?_, ?_⟩
    · rw [PublicApi.fetchHoldersJS, hJ]
      rfl
    · intro row hrow
      have hmem : row ∈ stJ.holders := (jsSliceTo_sublist _ _).mem hrow
      rw [hinvJ] at hmem
      obtain ⟨hh, hhf, hrow⟩ := List.mem_map.mp hmem
      have hq := (List.mem_filter.mp hhf).2
      simp only [jgeQ, decide_eq_true_eq] at hq
      rw [← hrow]
      exact hq
    · rw [jsSliceTo_some_length _ _ hl, hinvJ, List.length_map]

/-- C5 counterexample: the holder aggregation performs no per-wallet
merging — on an upstream page that lists the same owner twice, the
returned array contains that wallet address twice, so the claim that
every aggregation returns each wallet at most once is false as stated. -/
theorem c5_counterexample :
    ProApi.fetchHolders
        [ProApi.Fetch.ok
          [{ uiAmount := 50, owner := "A" }, { uiAmount := 50, owner := "A" }] 2]
        (some 10) (some 0) =
      Except.ok [{ wallet := "A", amount := 50 }, { wallet := "A", amount := 50 }] ∧
    ¬ (([{ wallet := "A", amount := 50 }, { wallet := "A", amount := 50 }] :
        List ProApi.HolderRow).map ProApi.HolderRow.wallet).Nodup := by
  constructor
  · rfl
  · decide

theorem nodup_wallets_slice_sortedTraders (m : List (String × ProApi.TraderAcc))
    (hnd : (akeys m).Nodup) (limit : Option Int) :
    ((jsSliceTo (ProApi.sortedTradersOf m) limit).map ProApi.TraderRow.wallet).Nodup := by
  have hperm : List.Perm ((ProApi.sortedTradersOf m).map ProApi.TraderRow.wallet)
      (akeys m) := by
    have h1 := (ProApi.sortedTradersOf_perm m).map ProApi.TraderRow.wallet
    have h2 : (m.map fun e =>
        ({ wallet := e.1, volume := e.2.volume, lastTx := e.2.lastTx } :
          ProApi.TraderRow)).map ProApi.TraderRow.wallet = akeys m := by
      rw [List.map_map]
      rfl
    rw [h2] at h1
    exact h1
  have hnodup : ((ProApi.sortedTradersOf m).map ProApi.TraderRow.wallet).Nodup :=
    hperm.nodup_iff.mpr hnd
  exact hnodup.sublist ((jsSliceTo_sublist _ _).map _)

theorem nodup_wallets_slice_sortedTradersPub (m : List (String × PublicApi.PubAcc))
    (hnd : (akeys m).Nodup) (limit : Option Int) :
    ((jsSliceTo (PublicApi.sortedTradersPubOf m) limit).map ProApi.TraderRow.wallet).Nodup := by
  have hperm : List.Perm ((PublicApi.sortedTradersPubOf m).map ProApi.TraderRow.wallet)
      (akeys m) := by
    have h1 := (List.mergeSort_perm (m.map fun e =>
        ({ wallet := e.1, volume := (e.2.count : ℚ), lastTx := e.2.lastTx } :
          ProApi.TraderRow)) (fun a b => decide (b.volume ≤ a.volume))).map
      ProApi.TraderRow.wallet
    have h2 : (m.map fun e =>
        ({ wallet := e.1, volume := (e.2.count : ℚ), lastTx := e.2.lastTx } :
          ProApi.TraderRow)).map ProApi.TraderRow.wallet = akeys m := by
      rw [List.map_map]
      rfl
    rw [h2] at h1
    exact h1
  have hnodup : ((PublicApi.sortedTradersPubOf m).map ProApi.TraderRow.wallet).Nodup :=
    hperm.nodup_iff.mpr hnd
  exact hnodup.sublist ((jsSliceTo_sublist _ _).map _)

/-- C5 as amended: the three map-based aggregations (both traders
variants and both interval variants) merge a repeated wallet into its
existing accumulator entry, so each returned array contains each wallet
address at most once; the holder aggregation accumulates a plain list
with no merging and can return the same wallet several times
(`c5_counterexample`). -/
theorem c5_amended_unique_wallets
    (pagesT : List (ProApi.Fetch ProApi.Transaction)) (limitT : Option Int)
    (outT : List ProApi.TraderRow)
    (hT : ProApi.fetchTopTraders pagesT limitT = Except.ok outT)
    (pagesP : List (PublicApi.FetchP PublicApi.PubTx)) (limitP : Option Int)
    (outP : List ProApi.TraderRow)
    (hP : PublicApi.fetchTopTradersPub pagesP limitP = Except.ok outP)
    (pagesI : List (ProApi.Fetch ProApi.Transaction)) (fromI toI : Option Int)
    (outI : List ProApi.ActiveRow)
    (hI : ProApi.fetchActiveWallets pagesI fromI toI = Except.ok outI)
    (pagesJ : List (PublicApi.FetchP PublicApi.PubTx)) (fromJ toJ : Option Int)
    (outJ : List ProApi.ActiveRow)
    (hJ : PublicApi.fetchActiveWalletsJS pagesJ fromJ toJ = Except.ok outJ) :
    (outT.map ProApi.TraderRow.wallet).Nodup ∧
    (outP.map ProApi.TraderRow.wallet).Nodup ∧
    (outI.map ProApi.ActiveRow.wallet).Nodup ∧
    (outJ.map ProApi.ActiveRow.wallet).Nodup := by
  refine ⟨?_, ?_, ?_, ?_⟩
  · rw [ProApi.fetchTopTraders] at hT
    cases hrun : ProApi.tradersLoop pagesT ProApi.tradersInit with
    | error e => rw [hrun] at hT; cases hT
    | ok st =>
      rw [hrun] at hT
      simp only [Except.map, Except.ok.injEq] at hT
      rw [← hT]
      exact nodup_wallets_slice_sortedTraders _ (ProApi.tradersLoop_nodup pagesT st hrun) _
  · rw [PublicApi.fetchTopTradersPub] at hP
    cases hrun : PublicApi.tradersLoopPub pagesP PublicApi.pubTradersInit with
    | error e => rw [hrun] at hP; cases hP
    | ok st =>
      rw [hrun] at hP
      simp only [Except.map, Except.ok.injEq] at hP
      rw [← hP]
      have hnd : (akeys st.walletCounts).Nodup := by
        rw [PublicApi.tradersLoopPub_inv pagesP PublicApi.pubTradersInit st hrun rfl]
        exact PublicApi.nodup_scan_tradersPub _
      exact nodup_wallets_slice_sortedTradersPub _ hnd _
  · rw [ProApi.fetchActiveWallets] at hI
    cases hrun : ProApi.intervalLoop fromI toI pagesI ProApi.intervalInit with
    | error e => rw [hrun] at hI; cases hI
    | ok st =>
      rw [hrun] at hI
      simp only [Except.map, Except.ok.injEq] at hI
      rw [← hI]
      have hnd := ProApi.intervalLoop_nodup fromI toI pagesI st hrun
      have heq : (st.activeWallets.map fun e =>
          ({ wallet := e.1, lastTx := e.2 } : ProApi.ActiveRow)).map
            ProApi.ActiveRow.wallet = akeys st.activeWallets := by
        rw [List.map_map]
        rfl
      rw [heq]
      exact hnd
  · rw [PublicApi.fetchActiveWalletsJS] at hJ
    cases hrun : PublicApi.intervalLoopJS fromJ toJ pagesJ PublicApi.intervalInitJS with
    | error e => rw [hrun] at hJ; cases hJ
    | ok st =>
      rw [hrun] at hJ
      simp only [Except.map, Except.ok.injEq] at hJ
      rw [← hJ]
      have hnd := PublicApi.intervalLoopJS_nodup fromJ toJ pagesJ st hrun
      have heq : (st.activeWallets.map fun e =>
          ({ wallet := e.1, lastTx := e.2 } : ProApi.ActiveRow)).map
            ProApi.ActiveRow.wallet = akeys st.activeWallets := by
        rw [List.map_map]
        rfl
      rw [heq]
      exact hnd

/-- A fetch sequence without failures always lets the interval loop
finish normally. -/
theorem intervalLoop_ok_of_no_fail (fromT toT : Option Int)
    (pages : List (ProApi.Fetch ProApi.Transaction)) (st : ProApi.IntervalState)
    (hok : ∀ p ∈ pages, p ≠ ProApi.Fetch.fail) :
    ∃ st', ProApi.intervalLoop fromT toT pages st = Except.ok st' := by
  induction pages generalizing st with
  | nil => exact ⟨st, rfl⟩
  | cons page rest ih =>
    cases page with
    | fail => exact absurd rfl (hok _ (List.mem_cons_self _ _))
    | ok dat total =>
      simp only [ProApi.intervalLoop]
      by_cases hemp : dat.length = 0
      · rw [if_pos hemp]
        exact ⟨st, rfl⟩
      · rw [if_neg hemp]
        by_cases hcont : !(ProApi.scanPage fromT toT st.activeWallets dat).2.2
        · rw [if_pos hcont]
          exact ⟨_, rfl⟩
        · rw [if_neg hcont]
          by_cases htot : total ≤ st.offset + 50
          · rw [if_pos htot]
            exact ⟨_, rfl⟩
          · rw [if_neg htot]
            exact ih _ (fun p hp => hok p (List.mem_cons_of_mem _ hp))

theorem demandingStream_replicate (dat : List ProApi.Transaction) (total : Nat)
    (hne : dat.isEmpty = false) :
    ∀ (n o : Nat), o + 50 * n < total →
      ProApi.demandingStream o (List.replicate n (ProApi.Fetch.ok dat total)) = true := by
  intro n
  induction n with
  | zero => intro o _; rfl
  | succ n ih =>
    intro o h
    rw [List.replicate_succ]
    simp only [ProApi.demandingStream, hne, Bool.not_false, Bool.true_and,
      Bool.and_eq_true, decide_eq_true_eq]
    exact ⟨by omega, ih (o + 50) (by omega)⟩

theorem length_joinPages_replicate (n : Nat) (dat : List ProApi.Transaction) (total : Nat) :
    (ProApi.joinPages (List.replicate n (ProApi.Fetch.ok dat total))).length =
      n * dat.length := by
  induction n with
  | zero => simp [ProApi.joinPages]
  | succ n ih =>
    rw [List.replicate_succ]
    simp only [ProApi.joinPages, List.length_append, ih]
    ring

theorem mem_joinPages_replicate {x : ProApi.Transaction}
    {dat : List ProApi.Transaction} {total n : Nat}
    (hx : x ∈ ProApi.joinPages (List.replicate n (ProApi.Fetch.ok dat total))) :
    x ∈ dat := by
  induction n with
  | zero => simp [ProApi.joinPages] at hx
  | succ n ih =>
    rw [List.replicate_succ] at hx
    simp only [ProApi.joinPages, List.mem_append] at hx
    rcases hx with h | h
    · exact h
    · exact ih h

/-- The record every adversarial upstream page of `c4_counterexample`
serves: in window `[0, 200]`. -/
def c4Tx : ProApi.Transaction :=
  { owner := "A", blockTime := 100, changeAmount := 0 }

/-- The adversarial upstream of `c4_counterexample`: 21 full pages of 50
in-window records each, always reporting a huge total. -/
def c4Pages : List (ProApi.Fetch ProApi.Transaction) :=
  List.replicate 21 (ProApi.Fetch.ok (List.replicate 50 c4Tx) 100000)

/-- C4 counterexample: the interval aggregation has no fixed
records-to-scan cap.  Against an upstream that keeps reporting a huge
total and serves 21 full in-window pages, the loop scans 1050 records —
more than any fixed constant in the claimed 500–1000 range — and would
scan more if more pages were served. -/
theorem c4_counterexample :
    ∃ st', ProApi.intervalLoop (some 0) (some 200) c4Pages ProApi.intervalInit =
        Except.ok st' ∧
      1000 < st'.scanned.length := by
  obtain ⟨st', hok⟩ := intervalLoop_ok_of_no_fail (some 0) (some 200) c4Pages
    ProApi.intervalInit
    (by
      intro p hp
      rw [c4Pages] at hp
      rw [List.eq_of_mem_replicate hp]
      simp)
  refine ⟨st', hok, ?_⟩
  obtain ⟨snew, rem, hscan, hjoin, hterm⟩ := ProApi.intervalLoop_scan_all (some 0) (some 200)
    c4Pages ProApi.intervalInit st'
    (by
      show ProApi.demandingStream 0 c4Pages = true
      rw [c4Pages]
      exact demandingStream_replicate (List.replicate 50 c4Tx) 100000 rfl 21 0 (by norm_num))
    hok
  have hrem : rem = [] := by
    by_contra hne
    obtain ⟨pre, term, hpre, hlt⟩ := hterm hne
    have hmem : term ∈ ProApi.joinPages c4Pages := by
      rw [hjoin, hpre]
      simp
    rw [c4Pages] at hmem
    have hterm_eq := List.eq_of_mem_replicate (mem_joinPages_replicate hmem)
    rw [hterm_eq] at hlt
    simp [c4Tx, jltNI] at hlt
  rw [hrem, List.append_nil] at hjoin
  have hlen : st'.scanned.length = 1050 := by
    rw [hscan, List.length_append]
    have hsn : snew.length = 1050 := by
      rw [← hjoin, c4Pages, length_joinPages_replicate]
      simp
    rw [hsn]
    rfl
  omega

/-- C4 as amended: the two traders variants do scan a bounded number of
records — the pro variant stops requesting once 1000 records are
processed, so with pages honouring the requested size of 50 it scans at
most 1049; the public variant caps the request offset below 500, so with
pages of at most 50 records it scans at most 500.  The interval variant
has no records-to-scan cap: its scan is bounded only by the
upstream-reported total or the end of the page sequence
(`c4_counterexample`). -/
theorem c4_amended_traders_scan_bounded
    (pagesT : List (ProApi.Fetch ProApi.Transaction)) (stT : ProApi.TradersState)
    (hpT : ∀ p ∈ pagesT, ∀ dat total, p = ProApi.Fetch.ok dat total → dat.length ≤ 50)
    (hT : ProApi.tradersLoop pagesT ProApi.tradersInit = Except.ok stT)
    (pagesP : List (PublicApi.FetchP PublicApi.PubTx)) (stP : PublicApi.PubTradersState)
    (hpP : ∀ p ∈ pagesP, ∀ dat, p = PublicApi.FetchP.ok dat → dat.length ≤ 50)
    (hP : PublicApi.tradersLoopPub pagesP PublicApi.pubTradersInit = Except.ok stP) :
    stT.scanned.length ≤ 1049 ∧ stP.scanned.length ≤ 500 := by
  have h1 := ProApi.tradersLoop_processed_bound pagesT ProApi.tradersInit stT hpT hT
  have h2 := (ProApi.tradersLoop_inv pagesT ProApi.tradersInit stT hT rfl rfl).2
  have h3 := PublicApi.tradersLoopPub_scanned_bound pagesP PublicApi.pubTradersInit stP
    hpP hP ⟨0, rfl⟩
  have h1' : stT.transactionsProcessed ≤ 1049 :=
    le_trans h1 (by norm_num [ProApi.tradersInit, max_le_iff])
  have h3' : stP.scanned.length ≤ 500 :=
    le_trans h3 (by norm_num [PublicApi.pubTradersInit])
  exact ⟨by omega, by omega⟩

/-! ## C1: trader aggregation -/

/-- The spec's per-row property for the pro traders output over a record
stream `S`: the row's volume is the sum of `|changeAmount| / 10^9` over
the wallet's records, and its `lastTx` is the maximum `blockTime`
observed for the wallet. -/
def ProApi.TraderRowCorrect (S : List ProApi.Transaction) (row : ProApi.TraderRow) : Prop :=
  row.volume = ((S.filter fun tx => decide (tx.owner = row.wallet)).map
    fun tx => |tx.changeAmount| / (10 ^ 9 : ℚ)).sum ∧
  row.lastTx ∈ (S.filter fun tx => decide (tx.owner = row.wallet)).map
    ProApi.Transaction.blockTime ∧
  ∀ b ∈ (S.filter fun tx => decide (tx.owner = row.wallet)).map
    ProApi.Transaction.blockTime, b ≤ row.lastTx

/-- The spec's per-row property for the public traders output over a
record stream `S`: the row's volume is the number of records signed by
the wallet, and its `lastTx` is the maximum `blockTime` observed among
them. -/
def PublicApi.TraderRowCorrectPub (S : List PublicApi.PubTx) (row : ProApi.TraderRow) : Prop :=
  row.volume = ((S.filter fun tx => decide (tx.signer.head? = some row.wallet)).length : ℚ) ∧
  row.lastTx ∈ (S.filter fun tx => decide (tx.signer.head? = some row.wallet)).map
    PublicApi.PubTx.blockTime ∧
  ∀ b ∈ (S.filter fun tx => decide (tx.signer.head? = some row.wallet)).map
    PublicApi.PubTx.blockTime, b ≤ row.lastTx

theorem keyTradersPub_ne_empty {tx : PublicApi.PubTx} {w : String}
    (h : PublicApi.keyTradersPub tx = some w) : w ≠ "" := by
  unfold PublicApi.keyTradersPub at h
  cases hs : tx.signer.head? with
  | none => rw [hs] at h; cases h
  | some w' =>
    rw [hs] at h
    by_cases hw' : w' = ""
    · simp [hw'] at h
    · simp [hw'] at h
      exact h ▸ hw'

theorem filter_keyTradersPub_eq {w : String} (hw : w ≠ "") (S : List PublicApi.PubTx) :
    (S.filter fun tx => decide (PublicApi.keyTradersPub tx = some w)) =
      S.filter fun tx => decide (tx.signer.head? = some w) := by
  apply List.filter_congr
  intro tx _
  unfold PublicApi.keyTradersPub
  cases hs : tx.signer.head? with
  | none => simp [hs]
  | some w' =>
    by_cases hw' : w' = ""
    · subst hw'
      simp [hs, Ne.symm hw]
    · simp [hs, hw']

theorem akeys_scan_traders_perm (S : List ProApi.Transaction) :
    List.Perm (akeys (S.foldl ProApi.stepTraders []))
      (S.map ProApi.Transaction.owner).dedup := by
  apply (List.perm_ext_iff_of_nodup (ProApi.nodup_scan_traders S) (List.nodup_dedup _)).mpr
  intro w
  rw [List.mem_dedup, ← isSome_alookup, ProApi.isSome_scan_traders]
  constructor
  · intro hne
    obtain ⟨tx, htx⟩ := List.exists_mem_of_ne_nil _ hne
    have hmem := List.mem_filter.mp htx
    have how : tx.owner = w := by simpa using hmem.2
    exact List.mem_map.mpr ⟨tx, hmem.1, how⟩
  · intro hmem
    obtain ⟨tx, htx, rfl⟩ := List.mem_map.mp hmem
    intro hnil
    have hin : tx ∈ S.filter fun t => decide (t.owner = tx.owner) :=
      List.mem_filter.mpr ⟨htx, by simp⟩
    rw [hnil] at hin
    simp at hin

theorem akeys_scan_tradersPub_perm (S : List PublicApi.PubTx) :
    List.Perm (akeys (S.foldl PublicApi.stepTradersPub []))
      (S.filterMap PublicApi.keyTradersPub).dedup := by
  apply (List.perm_ext_iff_of_nodup (PublicApi.nodup_scan_tradersPub S)
    (List.nodup_dedup _)).mpr
  intro w
  rw [List.mem_dedup, ← isSome_alookup, PublicApi.isSome_scan_tradersPub]
  constructor
  · intro hne
    obtain ⟨tx, htx⟩ := List.exists_mem_of_ne_nil _ hne
    have hmem := List.mem_filter.mp htx
    have hkey : PublicApi.keyTradersPub tx = some w := by simpa using hmem.2
    exact List.mem_filterMap.mpr ⟨tx, hmem.1, hkey⟩
  · intro hmem
    obtain ⟨tx, htx, hkey⟩ := List.mem_filterMap.mp hmem
    intro hnil
    have hin : tx ∈ S.filter fun t => decide (PublicApi.keyTradersPub t = some w) :=
      List.mem_filter.mpr ⟨htx, by simp [hkey]⟩
    rw [hnil] at hin
    simp at hin

/-- C1: for both traders variants, every emitted row carries the
wallet's accumulator — the sum of `|changeAmount| / 10^9` over the
wallet's scanned records (pro variant), or the count of the wallet's
scanned records (public variant) — and the wallet's maximal observed
`blockTime`; the returned array is sorted descending by the accumulator
and has length at most the requested limit; and whenever all distinct
wallets of the scanned stream fit in the limit, every one of them is
emitted. -/
theorem c1_traders_aggregation
    (pagesT : List (ProApi.Fetch ProApi.Transaction)) (stT : ProApi.TradersState)
    (hT : ProApi.tradersLoop pagesT ProApi.tradersInit = Except.ok stT)
    (lT : Int) (hlT : 0 ≤ lT)
    (pagesP : List (PublicApi.FetchP PublicApi.PubTx)) (stP : PublicApi.PubTradersState)
    (hP : PublicApi.tradersLoopPub pagesP PublicApi.pubTradersInit = Except.ok stP)
    (lP : Int) (hlP : 0 ≤ lP) :
    (∃ out, ProApi.fetchTopTraders pagesT (some lT) = Except.ok out ∧
      (∀ row ∈ out, ProApi.TraderRowCorrect stT.scanned row) ∧
      out.Pairwise (fun a b => b.volume ≤ a.volume) ∧
      (out.length : Int) ≤ lT ∧
      (((stT.scanned.map ProApi.Transaction.owner).dedup.length : Int) ≤ lT →
        ∀ tx ∈ stT.scanned, ∃ row ∈ out, row.wallet = tx.owner)) ∧
    (∃ out, PublicApi.fetchTopTradersPub pagesP (some lP) = Except.ok out ∧
      (∀ row ∈ out, row.wallet ≠ "" ∧ PublicApi.TraderRowCorrectPub stP.scanned row) ∧
      out.Pairwise (fun a b => b.volume ≤ a.volume) ∧
      (out.length : Int) ≤ lP ∧
      (((stP.scanned.filterMap PublicApi.keyTradersPub).dedup.length : Int) ≤ lP →
        ∀ tx ∈ stP.scanned, ∀ w, PublicApi.keyTradersPub tx = some w →
          ∃ row ∈ out, row.wallet = w)) := by
  have hmT : stT.walletVolumes = stT.scanned.foldl ProApi.stepTraders [] :=
    (ProApi.tradersLoop_inv pagesT ProApi.tradersInit stT hT rfl rfl).1
  have hndT : (akeys stT.walletVolumes).Nodup := by
    rw [hmT]
    exact ProApi.nodup_scan_traders _
  have hmP : stP.walletCounts = stP.scanned.foldl PublicApi.stepTradersPub [] :=
    PublicApi.tradersLoopPub_inv pagesP PublicApi.pubTradersInit stP hP rfl
  have hndP : (akeys stP.walletCounts).Nodup := by
    rw [hmP]
    exact PublicApi.nodup_scan_tradersPub _
  constructor
  · refine ⟨jsSliceTo (ProApi.sortedTradersOf stT.walletVolumes) (some lT),
      ?_, ?_, ?_, ?_, ?_⟩
    · rw [ProApi.fetchTopTraders, hT]
      rfl
    · intro row hrow
      have hrow2 : row ∈ ProApi.sortedTradersOf stT.walletVolumes :=
        (jsSliceTo_sublist _ _).mem hrow
      have hrow3 := (ProApi.sortedTradersOf_perm stT.walletVolumes).mem_iff.mp hrow2
      obtain ⟨e, he, hre⟩ := List.mem_map.mp hrow3
      have hlook : alookup stT.walletVolumes e.1 = some e.2 := alookup_of_mem_nodup hndT he
      rw [hmT] at hlook
      obtain ⟨hne, hvol, hlast⟩ := ProApi.alookup_scan_traders_value stT.scanned e.1 hlook
      subst hre
      have hmapne : (stT.scanned.filter fun t => decide (t.owner = e.1)).map
          ProApi.Transaction.blockTime ≠ [] := by
        intro hnil
        exact hne (List.map_eq_nil_iff.mp hnil)
      refine ⟨hvol, ?_, ?_⟩
      · show e.2.lastTx ∈ _
        rw [hlast]
        exact foldl_max_zero_mem hmapne
      · intro b hb
        show b ≤ e.2.lastTx
        rw [hlast]
        exact mem_le_foldl_max hb 0
    · exact (ProApi.sortedTradersOf_sorted _).sublist (jsSliceTo_sublist _ _)
    · exact jsSliceTo_length_le _ _ hlT
    · intro hfit tx htx
      have hsortlen : ((ProApi.sortedTradersOf stT.walletVolumes).length : Int) ≤ lT := by
        rw [(ProApi.sortedTradersOf_perm _).length_eq, List.length_map]
        have h1 : stT.walletVolumes.length = (akeys stT.walletVolumes).length :=
          (List.length_map _ _).symm
        have h2 : (akeys stT.walletVolumes).length =
            ((stT.scanned.map ProApi.Transaction.owner).dedup).length := by
          rw [hmT]
          exact (akeys_scan_traders_perm _).length_eq
        rw [h1, h2]
        exact hfit
      rw [jsSliceTo_eq_self _ _ hsortlen]
      have hcontrib : (stT.scanned.filter fun t => decide (t.owner = tx.owner)) ≠ [] := by
        intro hnil
        have hin : tx ∈ stT.scanned.filter fun t => decide (t.owner = tx.owner) :=
          List.mem_filter.mpr ⟨htx, by simp⟩
        rw [hnil] at hin
        simp at hin
      have hkey : tx.owner ∈ akeys stT.walletVolumes := by
        rw [hmT, ← isSome_alookup, ProApi.isSome_scan_traders]
        exact hcontrib
      obtain ⟨e, he, hew⟩ := List.mem_map.mp hkey
      exact ⟨{ wallet := e.1, volume := e.2.volume, lastTx := e.2.lastTx },
        (ProApi.sortedTradersOf_perm _).mem_iff.mpr (List.mem_map.mpr ⟨e, he, rfl⟩), hew⟩
  · refine ⟨jsSliceTo (PublicApi.sortedTradersPubOf stP.walletCounts) (some lP),
      ?_, ?_, ?_, ?_, ?_⟩
    · rw [PublicApi.fetchTopTradersPub, hP]
      rfl
    · intro row hrow
      have hrow2 : row ∈ PublicApi.sortedTradersPubOf stP.walletCounts :=
        (jsSliceTo_sublist _ _).mem hrow
      have hrow3 := (List.mergeSort_perm (stP.walletCounts.map fun e =>
        ({ wallet := e.1, volume := (e.2.count : ℚ), lastTx := e.2.lastTx } :
          ProApi.TraderRow)) (fun a b => decide (b.volume ≤ a.volume))).mem_iff.mp hrow2
      obtain ⟨e, he, hre⟩ := List.mem_map.mp hrow3
      have hlook : alookup stP.walletCounts e.1 = some e.2 := alookup_of_mem_nodup hndP he
      rw [hmP] at hlook
      obtain ⟨hne, hcnt, hlast⟩ := PublicApi.alookup_scan_tradersPub_value stP.scanned e.1 hlook
      have hw : e.1 ≠ "" := by
        obtain ⟨c, hc⟩ := List.exists_mem_of_ne_nil _ hne
        have hkey : PublicApi.keyTradersPub c = some e.1 := by
          simpa using (List.mem_filter.mp hc).2
        exact keyTradersPub_ne_empty hkey
      subst hre
      have hfeq := filter_keyTradersPub_eq hw stP.scanned
      have hmapne : (stP.scanned.filter fun tx =>
          decide (tx.signer.head? = some e.1)).map PublicApi.PubTx.blockTime ≠ [] := by
        intro hnil
        rw [← hfeq] at hnil
        exact hne (List.map_eq_nil_iff.mp hnil)
      refine ⟨hw, ?_, ?_, ?_⟩
      · show ((e.2.count : ℚ)) = _
        rw [hcnt, hfeq]
      · show e.2.lastTx ∈ _
        rw [hlast, hfeq]
        exact foldl_max_zero_mem hmapne
      · intro b hb
        show b ≤ e.2.lastTx
        rw [hlast, hfeq]
        exact mem_le_foldl_max hb 0
    · exact (ProApi.mergeSort_volume_sorted _).sublist (jsSliceTo_sublist _ _)
    · exact jsSliceTo_length_le _ _ hlP
    · intro hfit tx htx w hkeyw
      have hsortlen : ((PublicApi.sortedTradersPubOf stP.walletCounts).length : Int) ≤ lP := by
        rw [PublicApi.sortedTradersPubOf]
        rw [(List.mergeSort_perm _ _).length_eq, List.length_map]
        have h1 : stP.walletCounts.length = (akeys stP.walletCounts).length :=
          (List.length_map _ _).symm
        have h2 : (akeys stP.walletCounts).length =
            ((stP.scanned.filterMap PublicApi.keyTradersPub).dedup).length := by
          rw [hmP]
          exact (akeys_scan_tradersPub_perm _).length_eq
        rw [h1, h2]
        exact hfit
      rw [jsSliceTo_eq_self _ _ hsortlen]
      have hcontrib : (stP.scanned.filter fun t =>
          decide (PublicApi.keyTradersPub t = some w)) ≠ [] := by
        intro hnil
        have hin : tx ∈ stP.scanned.filter fun t =>
            decide (PublicApi.keyTradersPub t = some w) :=
          List.mem_filter.mpr ⟨htx, by simp [hkeyw]⟩
        rw [hnil] at hin
        simp at hin
      have hkey : w ∈ akeys stP.walletCounts := by
        rw [hmP, ← isSome_alookup, PublicApi.isSome_scan_tradersPub]
        exact hcontrib
      obtain ⟨e, he, hew⟩ := List.mem_map.mp hkey
      exact ⟨{ wallet := e.1, volume := (e.2.count : ℚ), lastTx := e.2.lastTx },
        (List.mergeSort_perm _ _).mem_iff.mpr (List.mem_map.mpr ⟨e, he, rfl⟩), hew⟩

/-! ## C2: interval aggregation -/

theorem alookup_scan_interval_isSome (fromT toT : Option Int)
    (S : List ProApi.Transaction) (w : String) :
    (alookup (S.foldl (ProApi.stepInterval fromT toT) []) w).isSome ↔
      ProApi.winRecords fromT toT w S ≠ [] := by
  rw [ProApi.alookup_scan_interval]
  rcases h : ProApi.winRecords fromT toT w S with _ | ⟨c, C⟩
  · simp
  · simp

theorem alookup_scan_interval_value (fromT toT : Option Int)
    (S : List ProApi.Transaction) (w : String) {τ : Nat}
    (h : alookup (S.foldl (ProApi.stepInterval fromT toT) []) w = some τ) :
    ProApi.winRecords fromT toT w S ≠ [] ∧
      τ = ((ProApi.winRecords fromT toT w S).map ProApi.Transaction.blockTime).foldl max 0 := by
  rw [ProApi.alookup_scan_interval] at h
  rcases hC : ProApi.winRecords fromT toT w S with _ | ⟨c, C⟩
  · rw [hC] at h
    simp at h
  · rw [hC] at h
    simp only [Option.some.injEq] at h
    exact ⟨List.cons_ne_nil c C, h.symm⟩

theorem alookup_scan_intervalJS_isSome (fv : Int) (toT : Option Int)
    (S : List PublicApi.PubTx) {w : String} (hw : w ≠ "") :
    (alookup (S.foldl (PublicApi.stepIntervalJSWin (some fv) toT) []) w).isSome ↔
      PublicApi.winRecordsJS (some fv) toT w S ≠ [] := by
  rw [PublicApi.alookup_scan_intervalJS fv toT hw]
  rcases h : PublicApi.winRecordsJS (some fv) toT w S with _ | ⟨c, C⟩
  · simp
  · simp

theorem alookup_scan_intervalJS_value (fv : Int) (toT : Option Int)
    (S : List PublicApi.PubTx) {w : String} (hw : w ≠ "") {τ : Nat}
    (h : alookup (S.foldl (PublicApi.stepIntervalJSWin (some fv) toT) []) w = some τ) :
    PublicApi.winRecordsJS (some fv) toT w S ≠ [] ∧
      τ = ((PublicApi.winRecordsJS (some fv) toT w S).map PublicApi.PubTx.blockTime).foldl
        max 0 := by
  rw [PublicApi.alookup_scan_intervalJS fv toT hw] at h
  rcases hC : PublicApi.winRecordsJS (some fv) toT w S with _ | ⟨c, C⟩
  · rw [hC] at h
    simp at h
  · rw [hC] at h
    simp only [Option.some.injEq] at h
    exact ⟨List.cons_ne_nil c C, h.symm⟩

/-- The spec's per-row property for the pro interval output: the row's
wallet has an in-window scanned record, and its `lastTx` is the maximal
in-window `blockTime` of the wallet. -/
def ProApi.ActiveRowCorrect (fromT toT : Option Int) (S : List ProApi.Transaction)
    (row : ProApi.ActiveRow) : Prop :=
  ProApi.winRecords fromT toT row.wallet S ≠ [] ∧
  row.lastTx ∈ (ProApi.winRecords fromT toT row.wallet S).map ProApi.Transaction.blockTime ∧
  ∀ b ∈ (ProApi.winRecords fromT toT row.wallet S).map ProApi.Transaction.blockTime,
    b ≤ row.lastTx

/-- The spec's per-row property for the public interval output. -/
def PublicApi.ActiveRowCorrectJS (fromT toT : Option Int) (S : List PublicApi.PubTx)
    (row : ProApi.ActiveRow) : Prop :=
  PublicApi.winRecordsJS fromT toT row.wallet S ≠ [] ∧
  row.lastTx ∈ (PublicApi.winRecordsJS fromT toT row.wallet S).map PublicApi.PubTx.blockTime ∧
  ∀ b ∈ (PublicApi.winRecordsJS fromT toT row.wallet S).map PublicApi.PubTx.blockTime,
    b ≤ row.lastTx

/-- C2: for both interval variants (bounds `from ≤ to`), a wallet
appears in the output iff it has an in-window record (`from ≤ blockTime
≤ to`) among the scanned records, and its `lastTx` is the maximal such
in-window `blockTime`; moreover, when the upstream pages never end the
pagination early (`demandingStream` / full pages) and the joined stream
is descending in `blockTime`, the short-circuit omits nothing: each
wallet's in-window records among the scanned trace are exactly its
in-window records of the whole upstream stream. -/
theorem c2_interval_aggregation
    (pages : List (ProApi.Fetch ProApi.Transaction)) (f t : Int) (hft : f ≤ t)
    (st : ProApi.IntervalState)
    (h : ProApi.intervalLoop (some f) (some t) pages ProApi.intervalInit = Except.ok st)
    (pagesJ : List (PublicApi.FetchP PublicApi.PubTx)) (fJ tJ : Int) (hftJ : fJ ≤ tJ)
    (stJ : PublicApi.IntervalStateJS)
    (hJ : PublicApi.intervalLoopJS (some fJ) (some tJ) pagesJ PublicApi.intervalInitJS =
      Except.ok stJ) :
    (∃ out, ProApi.fetchActiveWallets pages (some f) (some t) = Except.ok out ∧
      (∀ w, (∃ row ∈ out, row.wallet = w) ↔
        ProApi.winRecords (some f) (some t) w st.scanned ≠ []) ∧
      (∀ row ∈ out, ProApi.ActiveRowCorrect (some f) (some t) st.scanned row) ∧
      ((ProApi.demandingStream 0 pages = true ∧
          ((ProApi.joinPages pages).map ProApi.Transaction.blockTime).Pairwise (· ≥ ·)) →
        ∀ w, ProApi.winRecords (some f) (some t) w (ProApi.joinPages pages) =
          ProApi.winRecords (some f) (some t) w st.scanned)) ∧
    (∃ out, PublicApi.fetchActiveWalletsJS pagesJ (some fJ) (some tJ) = Except.ok out ∧
      (∀ w, w ≠ "" → ((∃ row ∈ out, row.wallet = w) ↔
        PublicApi.winRecordsJS (some fJ) (some tJ) w stJ.scanned ≠ [])) ∧
      (∀ row ∈ out, row.wallet ≠ "" ∧
        PublicApi.ActiveRowCorrectJS (some fJ) (some tJ) stJ.scanned row) ∧
      ((PublicApi.fullPagesStream pagesJ = true ∧
          ((PublicApi.joinPagesJS pagesJ).map PublicApi.PubTx.blockTime).Pairwise (· ≥ ·)) →
        ∀ w, PublicApi.winRecordsJS (some fJ) (some tJ) w (PublicApi.joinPagesJS pagesJ) =
          PublicApi.winRecordsJS (some fJ) (some tJ) w stJ.scanned)) := by
  have hm : st.activeWallets =
      st.scanned.foldl (ProApi.stepInterval (some f) (some t)) [] :=
    ProApi.intervalLoop_inv (some f) (some t) pages ProApi.intervalInit st h rfl
  have hnd : (akeys st.activeWallets).Nodup :=
    ProApi.intervalLoop_nodup (some f) (some t) pages st h
  have hmJ : stJ.activeWallets =
      stJ.scanned.foldl (PublicApi.stepIntervalJSWin (some fJ) (some tJ)) [] :=
    PublicApi.intervalLoopJS_inv (some fJ) (some tJ) pagesJ PublicApi.intervalInitJS stJ
      hJ rfl
  have hndJ : (akeys stJ.activeWallets).Nodup :=
    PublicApi.intervalLoopJS_nodup (some fJ) (some tJ) pagesJ stJ hJ
  constructor
  · refine ⟨st.activeWallets.map fun e => { wallet := e.1, lastTx := e.2 }, ?_, ?_, ?_, ?_⟩
    · rw [ProApi.fetchActiveWallets, h]
      rfl
    · intro w
      constructor
      · rintro ⟨row, hrow, rfl⟩
        obtain ⟨e, he, hre⟩ := List.mem_map.mp hrow
        have hlook : alookup st.activeWallets e.1 = some e.2 := alookup_of_mem_nodup hnd he
        rw [hm] at hlook
        have hiff := (alookup_scan_interval_isSome (some f) (some t) st.scanned e.1).mp
          (by simp [hlook])
        have hwallet : row.wallet = e.1 := by rw [← hre]
        rw [hwallet]
        exact hiff
      · intro hne
        have hsome := (alookup_scan_interval_isSome (some f) (some t) st.scanned w).mpr hne
        rw [← hm] at hsome
        obtain ⟨τ, hτ⟩ := Option.isSome_iff_exists.mp hsome
        exact ⟨{ wallet := w, lastTx := τ },
          List.mem_map.mpr ⟨(w, τ), mem_of_alookup_eq_some hτ, rfl⟩, rfl⟩
    · intro row hrow
      obtain ⟨e, he, hre⟩ := List.mem_map.mp hrow
      have hlook : alookup st.activeWallets e.1 = some e.2 := alookup_of_mem_nodup hnd he
      rw [hm] at hlook
      obtain ⟨hne, hval⟩ := alookup_scan_interval_value (some f) (some t) st.scanned e.1 hlook
      subst hre
      have hmapne : (ProApi.winRecords (some f) (some t) e.1 st.scanned).map
          ProApi.Transaction.blockTime ≠ [] := by
        intro hnil
        exact hne (List.map_eq_nil_iff.mp hnil)
      refine ⟨hne, ?_, ?_⟩
      · show e.2 ∈ _
        rw [hval]
        exact foldl_max_zero_mem hmapne
      · intro b hb
        show b ≤ e.2
        rw [hval]
        exact mem_le_foldl_max hb 0
    · rintro ⟨hd, hdesc⟩ w
      obtain ⟨snew, rem, hscan, hjoin, hterm⟩ :=
        ProApi.intervalLoop_scan_all (some f) (some t) pages ProApi.intervalInit st hd h
      have hscan' : st.scanned = snew := by simpa [ProApi.intervalInit] using hscan
      rw [hjoin, hscan']
      unfold ProApi.winRecords
      rw [List.filter_append]
      have hremnil : rem.filter (fun tx => decide (tx.owner = w) &&
          jgeNI tx.blockTime (some f) && jleNI tx.blockTime (some t)) = [] := by
        rcases Decidable.em (rem = []) with rfl | hne
        · rfl
        · obtain ⟨pre, term, hpre, hlt⟩ := hterm hne
          have hlt' : (term.blockTime : Int) < f := by
            simpa [jltNI] using hlt
          apply List.filter_eq_nil_iff.mpr
          intro x hx
          have hle : x.blockTime ≤ term.blockTime := by
            rw [hjoin, hpre] at hdesc
            rw [List.map_append, List.pairwise_append] at hdesc
            have := hdesc.2.2 term.blockTime
              (by
                rw [List.map_append]
                exact List.mem_append.mpr (Or.inr (by simp)))
              x.blockTime (List.mem_map.mpr ⟨x, hx, rfl⟩)
            exact this
          have : jgeNI x.blockTime (some f) = false := by
            simp only [jgeNI, decide_eq_false_iff_not, not_le]
            omega
          simp [this]
      rw [hremnil, List.append_nil]
  · refine ⟨stJ.activeWallets.map fun e => { wallet := e.1, lastTx := e.2 }, ?_, ?_, ?_, ?_⟩
    · rw [PublicApi.fetchActiveWalletsJS, hJ]
      rfl
    · intro w hw
      constructor
      · rintro ⟨row, hrow, rfl⟩
        obtain ⟨e, he, hre⟩ := List.mem_map.mp hrow
        have hlook : alookup stJ.activeWallets e.1 = some e.2 := alookup_of_mem_nodup hndJ he
        rw [hmJ] at hlook
        have hw1 : e.1 ≠ "" := by
          have hkm : e.1 ∈ akeys stJ.activeWallets :=
            List.mem_map.mpr ⟨e, he, rfl⟩
          rw [hmJ] at hkm
          exact PublicApi.scan_intervalJS_key_ne (some fJ) (some tJ) stJ.scanned e.1 hkm
        have hiff := (alookup_scan_intervalJS_isSome fJ (some tJ) stJ.scanned hw1).mp
          (by simp [hlook])
        have hwallet : row.wallet = e.1 := by rw [← hre]
        rw [hwallet]
        exact hiff
      · intro hne
        have hsome := (alookup_scan_intervalJS_isSome fJ (some tJ) stJ.scanned hw).mpr hne
        rw [← hmJ] at hsome
        obtain ⟨τ, hτ⟩ := Option.isSome_iff_exists.mp hsome
        exact ⟨{ wallet := w, lastTx := τ },
          List.mem_map.mpr ⟨(w, τ), mem_of_alookup_eq_some hτ, rfl⟩, rfl⟩
    · intro row hrow
      obtain ⟨e, he, hre⟩ := List.mem_map.mp hrow
      have hlook : alookup stJ.activeWallets e.1 = some e.2 := alookup_of_mem_nodup hndJ he
      rw [hmJ] at hlook
      have hw1 : e.1 ≠ "" := by
        have hkm : e.1 ∈ akeys stJ.activeWallets := List.mem_map.mpr ⟨e, he, rfl⟩
        rw [hmJ] at hkm
        exact PublicApi.scan_intervalJS_key_ne (some fJ) (some tJ) stJ.scanned e.1 hkm
      obtain ⟨hne, hval⟩ := alookup_scan_intervalJS_value fJ (some tJ) stJ.scanned hw1 hlook
      subst hre
      have hmapne : (PublicApi.winRecordsJS (some fJ) (some tJ) e.1 stJ.scanned).map
          PublicApi.PubTx.blockTime ≠ [] := by
        intro hnil
        exact hne (List.map_eq_nil_iff.mp hnil)
      refine ⟨hw1, hne, ?_, ?_⟩
      · show e.2 ∈ _
        rw [hval]
        exact foldl_max_zero_mem hmapne
      · intro b hb
        show b ≤ e.2
        rw [hval]
        exact mem_le_foldl_max hb 0
    · rintro ⟨hd, hdesc⟩ w
      obtain ⟨snew, rem, hscan, hjoin, hterm⟩ :=
        PublicApi.intervalLoopJS_scan_all (some fJ) (some tJ) pagesJ
          PublicApi.intervalInitJS stJ hd hJ
      have hscan' : stJ.scanned = snew := by simpa [PublicApi.intervalInitJS] using hscan
      rw [hjoin, hscan']
      unfold PublicApi.winRecordsJS
      rw [List.filter_append]
      have hremnil : rem.filter (fun tx => decide (tx.signer.head? = some w) &&
          jgeNI tx.blockTime (some fJ) && jleNI tx.blockTime (some tJ)) = [] := by
        rcases Decidable.em (rem = []) with rfl | hne
        · rfl
        · obtain ⟨pre, term, hpre, hlt⟩ := hterm hne
          have hlt' : (term.blockTime : Int) < fJ := by
            simpa [jltNI] using hlt
          apply List.filter_eq_nil_iff.mpr
          intro x hx
          have hle : x.blockTime ≤ term.blockTime := by
            rw [hjoin, hpre] at hdesc
            rw [List.map_append, List.pairwise_append] at hdesc
            have := hdesc.2.2 term.blockTime
              (by
                rw [List.map_append]
                exact List.mem_append.mpr (Or.inr (by simp)))
              x.blockTime (List.mem_map.mpr ⟨x, hx, rfl⟩)
            exact this
          have : jgeNI x.blockTime (some fJ) = false := by
            simp only [jgeNI, decide_eq_false_iff_not, not_le]
            omega
          simp [this]
      rw [hremnil, List.append_nil]

/-! ## Witnesses -/

theorem c6_fetch_failure_aborts_witness :
    ProApi.tradersInit.transactionsProcessed < 1000 ∧
    jltNI ProApi.holdersInit.holders.length (some 10) = true ∧
    ProApi.tradersLoop [ProApi.Fetch.fail] ProApi.tradersInit =
      Except.error "Failed to fetch transfer data from Solscan." ∧
    ProApi.intervalLoop (some 0) (some 10) [ProApi.Fetch.fail] ProApi.intervalInit =
      Except.error "Failed to fetch transfer data from Solscan." ∧
    ProApi.holdersLoop (some 10) (some 0) [ProApi.Fetch.fail] ProApi.holdersInit =
      Except.error "Failed to fetch holder data from Solscan." ∧
    ProApi.tradersHandler ⟨some "T", none, none, none, none⟩ [ProApi.Fetch.fail] =
      Resp.serverError "Failed to fetch transfer data from Solscan." ∧
    ProApi.intervalHandler ⟨some "T", none, none, some "0", some "10"⟩ [ProApi.Fetch.fail] =
      Resp.serverError "Failed to fetch transfer data from Solscan." ∧
    ProApi.holdersHandler ⟨some "T", none, none, none, none⟩ [ProApi.Fetch.fail] =
      Resp.serverError "Failed to fetch holder data from Solscan." :=
  ⟨by decide, by decide,
    c6_fetch_failure_aborts.1 [] ProApi.tradersInit (by decide),
    c6_fetch_failure_aborts.2.1 [] ProApi.intervalInit (some 0) (some 10),
    c6_fetch_failure_aborts.2.2.1 [] ProApi.holdersInit (some 10) (some 0) (by decide),
    c6_fetch_failure_aborts.2.2.2.1 ⟨some "T", none, none, none, none⟩ [ProApi.Fetch.fail]
      "T" _ rfl (by decide) rfl,
    c6_fetch_failure_aborts.2.2.2.2.1 ⟨some "T", none, none, some "0", some "10"⟩
      [ProApi.Fetch.fail] "T" "0" "10" _ rfl (by decide) rfl (by decide) rfl (by decide) rfl,
    c6_fetch_failure_aborts.2.2.2.2.2 ⟨some "T", none, none, none, none⟩ [ProApi.Fetch.fail]
      "T" _ rfl (by decide) rfl⟩

theorem c7_validation_and_errors_witness :
    ProApi.holdersHandler ⟨none, none, none, none, none⟩ [] =
      Resp.badRequest "Token address is required." ∧
    ProApi.tradersHandler ⟨none, none, none, none, none⟩ [] =
      Resp.badRequest "Token address is required." ∧
    ProApi.intervalHandler ⟨none, none, none, none, none⟩ [] =
      Resp.badRequest "Token address is required." ∧
    ProApi.intervalHandler ⟨some "T", none, none, none, some "10"⟩ [] =
      Resp.badRequest "A time range (from, to) is required." ∧
    ProApi.holdersHandler ⟨some "T", none, none, none, none⟩ [ProApi.Fetch.fail] =
      Resp.serverError "Failed to fetch holder data from Solscan." ∧
    ProApi.tradersHandler ⟨some "T", none, none, none, none⟩ [ProApi.Fetch.fail] =
      Resp.serverError "Failed to fetch transfer data from Solscan." ∧
    ProApi.intervalHandler ⟨some "T", none, none, some "0", some "10"⟩ [ProApi.Fetch.fail] =
      Resp.serverError "Failed to fetch transfer data from Solscan." :=
  ⟨c7_validation_and_errors.1 ⟨none, none, none, none, none⟩ [] rfl,
    c7_validation_and_errors.2.1 ⟨none, none, none, none, none⟩ [] rfl,
    c7_validation_and_errors.2.2.1 ⟨none, none, none, none, none⟩ [] rfl,
    c7_validation_and_errors.2.2.2.1 ⟨some "T", none, none, none, some "10"⟩ [] "T" rfl
      (by decide) (Or.inl rfl),
    c7_validation_and_errors.2.2.2.2.1 ⟨some "T", none, none, none, none⟩
      [ProApi.Fetch.fail] "T" _ rfl (by decide) rfl,
    c7_validation_and_errors.2.2.2.2.2.1 ⟨some "T", none, none, none, none⟩
      [ProApi.Fetch.fail] "T" _ rfl (by decide) rfl,
    c7_validation_and_errors.2.2.2.2.2.2 ⟨some "T", none, none, some "0", some "10"⟩
      [ProApi.Fetch.fail] "T" "0" "10" _ rfl (by decide) rfl (by decide) rfl (by decide) rfl⟩

theorem c10_nan_numeric_params_witness :
    ("T" : String) ≠ "" ∧ jsParseInt "abc" = none ∧
    (ProApi.holdersLoop none (jsParseFloat ((none : Option String).getD "0")) []
        ProApi.holdersInit = Except.ok ProApi.holdersInit ∧
      ProApi.holdersHandler ⟨some "T", some "abc", none, none, none⟩ [] = Resp.ok []) ∧
    ProApi.tradersHandler ⟨some "T", some "abc", none, none, none⟩ [] = Resp.ok [] ∧
    ProApi.intervalHandler ⟨some "T", none, none, some "abc", some "5"⟩ [] = Resp.ok [] :=
  ⟨by decide, by decide,
    c10_nan_numeric_params.1 [] "T" "abc" none none none (by decide) (by decide),
    c10_nan_numeric_params.2.1 [] ProApi.tradersInit "T" "abc" none none none (by decide)
      (by decide) rfl,
    c10_nan_numeric_params.2.2 [] ProApi.intervalInit "T" "abc" "5" none none (by decide)
      (by decide) (by decide) (Or.inl (by decide)) rfl⟩

theorem c4_amended_witness :
    ProApi.tradersInit.scanned.length ≤ 1049 ∧
    PublicApi.pubTradersInit.scanned.length ≤ 500 :=
  c4_amended_traders_scan_bounded [] ProApi.tradersInit (by simp) rfl
    [] PublicApi.pubTradersInit (by simp) rfl

unseal List.mergeSort List.merge in
theorem c5_amended_witness :
    (([] : List ProApi.TraderRow).map ProApi.TraderRow.wallet).Nodup ∧
    (([] : List ProApi.TraderRow).map ProApi.TraderRow.wallet).Nodup ∧
    (([] : List ProApi.ActiveRow).map ProApi.ActiveRow.wallet).Nodup ∧
    (([] : List ProApi.ActiveRow).map ProApi.ActiveRow.wallet).Nodup :=
  c5_amended_unique_wallets [] (some 5) [] rfl [] (some 5) [] rfl
    [] (some 0) (some 10) [] rfl [] (some 0) (some 10) [] rfl

/-- First upstream holder record of the C3 witness (the spec's example). -/
def c3H1 : ProApi.Holder := { uiAmount := 50, owner := "A" }

/-- Second upstream holder record of the C3 witness. -/
def c3H2 : ProApi.Holder := { uiAmount := 5, owner := "B" }

/-- Upstream page sequence of the C3 witness (pro variant). -/
def c3PagesT : List (ProApi.Fetch ProApi.Holder) := [ProApi.Fetch.ok [c3H1, c3H2] 2]

/-- Upstream page sequence of the C3 witness (public variant). -/
def c3PagesJ : List (PublicApi.FetchP ProApi.Holder) := [PublicApi.FetchP.ok [c3H1, c3H2]]

/-- Final loop state of the C3 witness run. -/
def c3St : ProApi.HoldersState :=
  { holders := [{ wallet := "A", amount := 50 }], offset := 0,
    scanned := [c3H1, c3H2], fetches := 1 }

theorem c3_holders_witness :
    (0 : Int) ≤ 10 ∧
    (ProApi.fetchHolders c3PagesT (some 10) (some 10) =
        Except.ok (jsSliceTo c3St.holders (some 10)) ∧
      (∀ row ∈ jsSliceTo c3St.holders (some 10), (10 : ℚ) ≤ row.amount) ∧
      (jsSliceTo c3St.holders (some 10)).length =
        min (10 : Int).toNat (c3St.scanned.filter fun hh => jgeQ hh.uiAmount (some 10)).length) ∧
    (PublicApi.fetchHoldersJS c3PagesJ (some 10) (some 10) =
        Except.ok (jsSliceTo c3St.holders (some 10)) ∧
      (∀ row ∈ jsSliceTo c3St.holders (some 10), (10 : ℚ) ≤ row.amount) ∧
      (jsSliceTo c3St.holders (some 10)).length =
        min (10 : Int).toNat (c3St.scanned.filter fun hh => jgeQ hh.uiAmount (some 10)).length) :=
  ⟨by decide,
    (c3_holders_filter_and_length c3PagesT c3PagesJ 10 (by decide) 10 c3St c3St
      rfl rfl).1,
    (c3_holders_filter_and_length c3PagesT c3PagesJ 10 (by decide) 10 c3St c3St
      rfl rfl).2⟩

/-- The single upstream transfer of the C1 witness (pro variant). -/
def c1Tx : ProApi.Transaction := { owner := "A", blockTime := 100, changeAmount := 0 }

/-- Upstream page sequence of the C1 witness (pro variant). -/
def c1PagesT : List (ProApi.Fetch ProApi.Transaction) := [ProApi.Fetch.ok [c1Tx] 1]

/-- Final loop state of the C1 witness run (pro variant). -/
def c1StT : ProApi.TradersState :=
  { walletVolumes :=
      [("A", { volume := 0 + |c1Tx.changeAmount| / (10 ^ 9 : ℚ), lastTx := 100 })],
    transactionsProcessed := 1, offset := 50, scanned := [c1Tx], fetches := 1 }

/-- The single upstream transaction of the C1 witness (public variant). -/
def c1TxP : PublicApi.PubTx := { signer := ["B"], blockTime := 200 }

/-- Upstream page sequence of the C1 witness (public variant). -/
def c1PagesP : List (PublicApi.FetchP PublicApi.PubTx) := [PublicApi.FetchP.ok [c1TxP]]

/-- Final loop state of the C1 witness run (public variant). -/
def c1StP : PublicApi.PubTradersState :=
  { walletCounts := [("B", { count := 1, lastTx := 200 })], offset := 0,
    scanned := [c1TxP], fetches := 1 }

theorem c1_traders_witness :
    (∃ out, ProApi.fetchTopTraders c1PagesT (some 5) = Except.ok out ∧
      (∀ row ∈ out, ProApi.TraderRowCorrect c1StT.scanned row) ∧
      out.Pairwise (fun a b => b.volume ≤ a.volume) ∧
      (out.length : Int) ≤ 5 ∧
      (((c1StT.scanned.map ProApi.Transaction.owner).dedup.length : Int) ≤ 5 →
        ∀ tx ∈ c1StT.scanned, ∃ row ∈ out, row.wallet = tx.owner)) ∧
    (∃ out, PublicApi.fetchTopTradersPub c1PagesP (some 5) = Except.ok out ∧
      (∀ row ∈ out, row.wallet ≠ "" ∧ PublicApi.TraderRowCorrectPub c1StP.scanned row) ∧
      out.Pairwise (fun a b => b.volume ≤ a.volume) ∧
      (out.length : Int) ≤ 5 ∧
      (((c1StP.scanned.filterMap PublicApi.keyTradersPub).dedup.length : Int) ≤ 5 →
        ∀ tx ∈ c1StP.scanned, ∀ w, PublicApi.keyTradersPub tx = some w →
          ∃ row ∈ out, row.wallet = w)) :=
  c1_traders_aggregation c1PagesT c1StT rfl 5 (by decide) c1PagesP c1StP rfl 5 (by decide)

/-- First upstream transfer of the C2 witness: inside the `[100, 150]`
window (the spec's example). -/
def c2Tx1 : ProApi.Transaction := { owner := "B", blockTime := 120, changeAmount := 0 }

/-- Second upstream transfer of the C2 witness: below the window start,
triggering the short-circuit. -/
def c2Tx2 : ProApi.Transaction := { owner := "B", blockTime := 90, changeAmount := 0 }

/-- Upstream page sequence of the C2 witness (pro variant). -/
def c2Pages : List (ProApi.Fetch ProApi.Transaction) := [ProApi.Fetch.ok [c2Tx1, c2Tx2] 1000]

/-- Final loop state of the C2 witness run (pro variant). -/
def c2St : ProApi.IntervalState :=
  { activeWallets := [("B", 120)], offset := 50, scanned := [c2Tx1, c2Tx2], fetches := 1 }

/-- First upstream transaction of the C2 witness (public variant). -/
def c2TxJ1 : PublicApi.PubTx := { signer := ["B"], blockTime := 120 }

/-- Second upstream transaction of the C2 witness (public variant). -/
def c2TxJ2 : PublicApi.PubTx := { signer := ["B"], blockTime := 90 }

/-- Upstream page sequence of the C2 witness (public variant). -/
def c2PagesJ : List (PublicApi.FetchP PublicApi.PubTx) :=
  [PublicApi.FetchP.ok [c2TxJ1, c2TxJ2]]

/-- Final loop state of the C2 witness run (public variant). -/
def c2StJ : PublicApi.IntervalStateJS :=
  { activeWallets := [("B", 120)], offset := 0, scanned := [c2TxJ1, c2TxJ2], fetches := 1 }

theorem c2_interval_witness :
    (100 : Int) ≤ 150 ∧
    (∃ out, ProApi.fetchActiveWallets c2Pages (some 100) (some 150) = Except.ok out ∧
      (∀ w, (∃ row ∈ out, row.wallet = w) ↔
        ProApi.winRecords (some 100) (some 150) w c2St.scanned ≠ []) ∧
      (∀ row ∈ out, ProApi.ActiveRowCorrect (some 100) (some 150) c2St.scanned row) ∧
      ((ProApi.demandingStream 0 c2Pages = true ∧
          ((ProApi.joinPages c2Pages).map ProApi.Transaction.blockTime).Pairwise (· ≥ ·)) →
        ∀ w, ProApi.winRecords (some 100) (some 150) w (ProApi.joinPages c2Pages) =
          ProApi.winRecords (some 100) (some 150) w c2St.scanned)) ∧
    (∃ out, PublicApi.fetchActiveWalletsJS c2PagesJ (some 100) (some 150) = Except.ok out ∧
      (∀ w, w ≠ "" → ((∃ row ∈ out, row.wallet = w) ↔
        PublicApi.winRecordsJS (some 100) (some 150) w c2StJ.scanned ≠ [])) ∧
      (∀ row ∈ out, row.wallet ≠ "" ∧
        PublicApi.ActiveRowCorrectJS (some 100) (some 150) c2StJ.scanned row) ∧
      ((PublicApi.fullPagesStream c2PagesJ = true ∧
          ((PublicApi.joinPagesJS c2PagesJ).map PublicApi.PubTx.blockTime).Pairwise (· ≥ ·)) →
        ∀ w, PublicApi.winRecordsJS (some 100) (some 150) w (PublicApi.joinPagesJS c2PagesJ) =
          PublicApi.winRecordsJS (some 100) (some 150) w c2StJ.scanned)) :=
  ⟨by decide,
    (c2_interval_aggregation c2Pages 100 150 (by decide) c2St rfl
      c2PagesJ 100 150 (by decide) c2StJ rfl).1,
    (c2_interval_aggregation c2Pages 100 150 (by decide) c2St rfl
      c2PagesJ 100 150 (by decide) c2StJ rfl).2⟩
